import Mathlib

set_option maxRecDepth 8000

/-!
Shallow embedding of the buddy allocator of this repository
(the complete source variant `src/unnamed/part_000`; `src/buddy.c` is an
earlier draft of the same file).  Machine addresses are modelled as byte
offsets from the arena base `g_memory`; the intrusive `struct list_head`
free lists are modelled as lists of page indices, where membership in the
list models being linked into it and the list head is the most recently
added node (`list_add` inserts right after the head, `free_area[i].next`
is the first element).  `list_del` of a node that was found on list `i`
removes that one occurrence from list `i`.  Out-of-bounds array accesses
of the C code (undefined behavior) are modelled by `buddy_free` returning
`none`.  The upward-counting C for-loops are written with an explicit
structural fuel argument so that they compute by kernel reduction; the
fuel passed at every call site strictly exceeds the number of iterations
the loop bound `i <= MAX_ORDER` allows, so it never cuts a loop short.
-/

def MIN_ORDER : Nat := 12

def MAX_ORDER : Nat := 20

/-- MEMORY_AREA is 1 << MAX_ORDER, the arena size in bytes. -/
def MEMORY_AREA : Nat := 2 ^ MAX_ORDER

/-- PAGE_SIZE is 1 << MIN_ORDER. -/
def PAGE_SIZE : Nat := 2 ^ MIN_ORDER

def PAGE_NUM : Nat := MEMORY_AREA / PAGE_SIZE

/-- Macro PAGE_TO_ADDR: page index to address (byte offset from g_memory). -/
def PAGE_TO_ADDR (page_idx : Nat) : Nat := page_idx * PAGE_SIZE

/-- Macro ADDR_TO_PAGE: address (byte offset from g_memory) to page index. -/
def ADDR_TO_PAGE (addr : Nat) : Nat := addr / PAGE_SIZE

/-- Macro BUDDY_ADDR: offset of addr from g_memory XORed with 1 << o. -/
def BUDDY_ADDR (addr : Nat) (o : Nat) : Nat := addr ^^^ (2 ^ o)

/-- Struct page_t.  The intrusive `struct list_head list` field is modelled
by free-list membership; the remaining fields are carried verbatim. -/
structure page_t where
  block_size : Int
  page_index : Nat
  block_address : Nat
deriving DecidableEq

instance : Inhabited page_t := ⟨⟨0, 0, 0⟩⟩

/-- The allocator's global mutable state: `free_area[MAX_ORDER+1]` and
`g_pages[PAGE_NUM]` (the byte contents of `g_memory` play no role in the
bookkeeping). -/
structure BuddyState where
  free_area : List (List Nat)
  g_pages : List page_t
deriving DecidableEq

/-- Read free_area[o] (the C lists below MIN_ORDER are never initialized;
reachable code never reads them, and the model keeps them as `[]`). -/
def fal (st : BuddyState) (o : Nat) : List Nat := st.free_area.getD o []

/-- Read g_pages[i]. -/
def pga (st : BuddyState) (i : Nat) : page_t := st.g_pages.getD i default

/-- buddy_init: reinitializes every page record, resets the free lists for
orders MIN_ORDER..MAX_ORDER, adds page 0 to free_area[MAX_ORDER] and sets
its block_size to MAX_ORDER. -/
def buddy_init (st : BuddyState) : BuddyState :=
  { free_area :=
      (((List.range' MIN_ORDER (MAX_ORDER - MIN_ORDER + 1)).foldl
        (fun l i => l.set i []) st.free_area)).set MAX_ORDER [0]
  , g_pages :=
      ((List.range PAGE_NUM).map (fun i =>
        { block_size := -1, page_index := i, block_address := PAGE_TO_ADDR i })).set 0
        { block_size := (MAX_ORDER : Int), page_index := 0, block_address := PAGE_TO_ADDR 0 } }

/-- The zero-initialized C globals before the program calls buddy_init. -/
def zeroState : BuddyState :=
  { free_area := List.replicate (MAX_ORDER + 1) []
  , g_pages := List.replicate PAGE_NUM default }

/-- The allocator state right after buddy_init. -/
def initState : BuddyState := buddy_init zeroState

/-- Loop of order_exp: while ((1 << order_num) < size && order_num < MAX_ORDER)
order_num++.  The guard `order_num < MAX_ORDER` allows at most
MAX_ORDER - order_num iterations, which the fuel matches exactly. -/
def order_exp_go : Nat → Nat → Int → Nat
  | 0, order_num, _ => order_num
  | fuel + 1, order_num, size =>
    if (2 : Int) ^ order_num < size ∧ order_num < MAX_ORDER then
      order_exp_go fuel (order_num + 1) size
    else order_num

/-- order_exp: smallest order starting from MIN_ORDER whose block size
reaches `size`, capped at MAX_ORDER. -/
def order_exp (size : Int) : Nat := order_exp_go (MAX_ORDER - MIN_ORDER) MIN_ORDER size

/-- Recursive split: while order exceeds targetOrder, adds the right buddy
of the order-(order-1) left half to free_area[order-1] and recurses.  The C
recursion checks only `order == targetOrder` and never returns when
order < targetOrder; call sites always have targetOrder ≤ order, and the
model returns the lists unchanged on that unreachable branch. -/
def split (order targetOrder index : Nat) (faL : List (List Nat)) : List (List Nat) :=
  if order ≤ targetOrder then faL
  else
    match order with
    | 0 => faL
    | o + 1 =>
      let cur_page := ADDR_TO_PAGE (BUDDY_ADDR (PAGE_TO_ADDR index) o)
      split o targetOrder index (faL.set o (cur_page :: faL.getD o []))

/-- The free-list scan of buddy_alloc: for i from `order` up to MAX_ORDER,
take the first non-empty list.  Exact fit: unlink the head and return its
block_address (the C code records no order here).  Larger block: unlink the
head, set its block_size to the target order, split, and return its
block_address.  If every list is empty, return NULL with no mutation. -/
def buddy_alloc_scan : Nat → Nat → Nat → BuddyState → Option Nat × BuddyState
  | 0, _, _, st => (none, st)
  | fuel + 1, order, i, st =>
    if MAX_ORDER < i then (none, st)
    else
      match st.free_area.getD i [] with
      | [] => buddy_alloc_scan fuel order (i + 1) st
      | idx :: rest =>
        if i = order then
          (some (pga st idx).block_address,
           { st with free_area := st.free_area.set i rest })
        else
          let entry := pga st idx
          let cur_index := entry.page_index
          let st1 : BuddyState := { st with free_area := st.free_area.set i rest }
          let st2 : BuddyState :=
            { st1 with g_pages := st1.g_pages.set idx { entry with block_size := (order : Int) } }
          (some entry.block_address,
           { st2 with free_area := split i order cur_index st2.free_area })

/-- buddy_alloc (src/unnamed/part_000): computes the order and scans the
free lists from it upward. -/
def buddy_alloc (size : Int) (st : BuddyState) : Option Nat × BuddyState :=
  buddy_alloc_scan (MAX_ORDER + 1) (order_exp size) (order_exp size) st

/-- Merge loop of buddy_free: at order i, scan free_area[i] for a node
whose block_address equals BUDDY_ADDR(addr, i).  If none matches (or the
list is empty), store block_size -1 on the current head page, add it to
free_area[i] and stop.  Otherwise unlink the buddy, move to the lower of
the two addresses, and continue at i+1.  Past MAX_ORDER the C for-loop
exits without inserting anything. -/
def buddy_free_go : Nat → Nat → Nat → Nat → BuddyState → BuddyState
  | 0, _, _, _, st => st
  | fuel + 1, i, addr, free_index, st =>
    if MAX_ORDER < i then st
    else
      match (st.free_area.getD i []).find?
          (fun j => (pga st j).block_address == BUDDY_ADDR addr i) with
      | none =>
        let p := pga st free_index
        let st1 : BuddyState :=
          { st with g_pages := st.g_pages.set free_index { p with block_size := -1 } }
        { st1 with free_area := st1.free_area.set i (free_index :: st1.free_area.getD i []) }
      | some j =>
        let buddy := pga st j
        let addr' := if buddy.block_address < addr then buddy.block_address else addr
        let free_index' :=
          if buddy.block_address < addr then ADDR_TO_PAGE buddy.block_address else free_index
        buddy_free_go fuel (i + 1) addr' free_index'
          { st with free_area := st.free_area.set i ((st.free_area.getD i []).erase j) }

/-- buddy_free (src/unnamed/part_000): reads the stored block_size of the
page holding `addr` and runs the merge loop from that order.  When the
stored order is below MIN_ORDER (the sentinel -1, or an index into the
never-initialized low lists), the C loop indexes `free_area` outside its
initialized range: undefined behavior, modelled as `none`. -/
def buddy_free (addr : Nat) (st : BuddyState) : Option BuddyState :=
  let free_index := ADDR_TO_PAGE addr
  let free_order := (pga st free_index).block_size
  if free_order < (MIN_ORDER : Int) then none
  else some (buddy_free_go (MAX_ORDER + 1) free_order.toNat addr free_index st)

/-- Number of pages of an order-o block. -/
def blockPages (o : Nat) : Nat := 2 ^ (o - MIN_ORDER)

/-- All free blocks recorded across the free lists, as (head page, order). -/
def freeBlocksList (st : BuddyState) : List (Nat × Nat) :=
  (List.range (MAX_ORDER + 1)).flatMap
    (fun o => (st.free_area.getD o []).map (fun p => (p, o)))

/-- How many of the given blocks (head page, order) cover page `p`. -/
def coverCount (blocks : List (Nat × Nat)) (p : Nat) : Nat :=
  (blocks.filter (fun b => decide (b.1 ≤ p ∧ p < b.1 + blockPages b.2))).length

/-- The free blocks together with the given live allocated blocks tile the
arena: every page is covered exactly once. -/
def tilesArena (st : BuddyState) (live : List (Nat × Nat)) : Prop :=
  ∀ p < PAGE_NUM, coverCount (freeBlocksList st ++ live) p = 1

/-- Number of halving steps (free-list insertions) the split recursion
performs; it mirrors the recursion of `split` exactly. -/
def splitSteps (order targetOrder : Nat) : Nat :=
  if order ≤ targetOrder then 0
  else
    match order with
    | 0 => 0
    | o + 1 => splitSteps o targetOrder + 1

/-- Number of merge steps (buddy removals) the buddy_free loop performs;
it mirrors the recursion of `buddy_free_go` exactly. -/
def mergeSteps : Nat → Nat → Nat → Nat → BuddyState → Nat
  | 0, _, _, _, _ => 0
  | fuel + 1, i, addr, free_index, st =>
    if MAX_ORDER < i then 0
    else
      match (st.free_area.getD i []).find?
          (fun j => (pga st j).block_address == BUDDY_ADDR addr i) with
      | none => 0
      | some j =>
        let buddy := pga st j
        let addr' := if buddy.block_address < addr then buddy.block_address else addr
        let free_index' :=
          if buddy.block_address < addr then ADDR_TO_PAGE buddy.block_address else free_index
        mergeSteps fuel (i + 1) addr' free_index'
          { st with free_area := st.free_area.set i ((st.free_area.getD i []).erase j) } + 1

/-- Total length of all free lists. -/
def sumLen (faL : List (List Nat)) : Nat := (faL.map List.length).sum

/-- Ghost trace of the allocator: reachable states paired with the list of
live allocations (address, granted order = order_exp of the request).  A
free step requires the freed address to be live (the spec precondition:
buddy_free only on addresses returned by a prior successful buddy_alloc
and not yet freed) and to be executable (no undefined behavior). -/
inductive Reach : BuddyState → List (Nat × Nat) → Prop where
  | start : Reach initState []
  | restart (s : BuddyState) (L : List (Nat × Nat)) :
      Reach s L → Reach (buddy_init s) []
  | alloc_ok (s s' : BuddyState) (L : List (Nat × Nat)) (size : Int) (a : Nat) :
      Reach s L → buddy_alloc size s = (some a, s') →
      Reach s' ((a, order_exp size) :: L)
  | alloc_fail (s s' : BuddyState) (L : List (Nat × Nat)) (size : Int) :
      Reach s L → buddy_alloc size s = (none, s') → Reach s' L
  | free_ok (s s' : BuddyState) (L : List (Nat × Nat)) (a o : Nat) :
      Reach s L → (a, o) ∈ L → buddy_free a s = some s' →
      Reach s' (L.erase (a, o))

/-- The allocator invariant tying a state to its ghost live list: lengths
and canonical page fields, empty low lists, per-order free lists holding
aligned in-arena blocks that are pairwise disjoint and disjoint from the
live blocks, and order fields that never exceed what a page's alignment
permits (nor the order of the free list / live block the page heads). -/
structure BuddyInv (st : BuddyState) (L : List (Nat × Nat)) : Prop where
  falen : st.free_area.length = MAX_ORDER + 1
  pglen : st.g_pages.length = PAGE_NUM
  canon : ∀ i < PAGE_NUM,
    (pga st i).page_index = i ∧ (pga st i).block_address = PAGE_TO_ADDR i
  low_empty : ∀ o < MIN_ORDER, st.free_area.getD o [] = []
  fb_nodup : ∀ o < MAX_ORDER + 1, (st.free_area.getD o []).Nodup
  fb_ok : ∀ o < MAX_ORDER + 1, ∀ p ∈ st.free_area.getD o [],
    blockPages o ∣ p ∧ p + blockPages o ≤ PAGE_NUM
  fb_disj : ∀ o < MAX_ORDER + 1, ∀ o' < MAX_ORDER + 1,
    ∀ p ∈ st.free_area.getD o [], ∀ q ∈ st.free_area.getD o' [],
    ¬(o = o' ∧ p = q) → p + blockPages o ≤ q ∨ q + blockPages o' ≤ p
  bs_align : ∀ i < PAGE_NUM, (pga st i).block_size = -1 ∨
    ∃ b < MAX_ORDER + 1, (pga st i).block_size = (b : Int) ∧ MIN_ORDER ≤ b ∧
      blockPages b ∣ i ∧ i + blockPages b ≤ PAGE_NUM
  fb_bs : ∀ o < MAX_ORDER + 1, ∀ p ∈ st.free_area.getD o [],
    (pga st p).block_size ≤ (o : Int)
  live_ok : ∀ ao ∈ L, MIN_ORDER ≤ ao.2 ∧ ao.2 ≤ MAX_ORDER ∧ 2 ^ ao.2 ∣ ao.1 ∧
    ao.1 + 2 ^ ao.2 ≤ MEMORY_AREA
  live_disj : L.Pairwise (fun x y => x.1 + 2 ^ x.2 ≤ y.1 ∨ y.1 + 2 ^ y.2 ≤ x.1)
  live_fb : ∀ ao ∈ L, ∀ o < MAX_ORDER + 1, ∀ p ∈ st.free_area.getD o [],
    ao.1 + 2 ^ ao.2 ≤ PAGE_TO_ADDR p ∨ PAGE_TO_ADDR p + 2 ^ o ≤ ao.1
  live_bs : ∀ ao ∈ L, (pga st (ADDR_TO_PAGE ao.1)).block_size ≤ (ao.2 : Int)

/-! ### Basic helper lemmas -/

theorem MIN_ORDER_eq : MIN_ORDER = 12 := rfl

theorem MAX_ORDER_eq : MAX_ORDER = 20 := rfl

theorem MEMORY_AREA_eq : MEMORY_AREA = 1048576 := rfl

theorem PAGE_SIZE_eq : PAGE_SIZE = 4096 := rfl

theorem PAGE_NUM_eq : PAGE_NUM = 256 := rfl

theorem getD_set_self {α : Type} (l : List α) (i : Nat) (x d : α) (h : i < l.length) :
    (l.set i x).getD i d = x := by
  simp [List.getD_eq_getElem?_getD, List.getElem?_set_self h]

theorem getD_set_ne {α : Type} (l : List α) (i j : Nat) (x d : α) (h : i ≠ j) :
    (l.set i x).getD j d = l.getD j d := by
  simp [List.getD_eq_getElem?_getD, List.getElem?_set_ne h]

theorem order_exp_go_ge : ∀ (fuel n : Nat) (size : Int), n ≤ order_exp_go fuel n size := by
  intro fuel
  induction fuel with
  | zero => intro n size; exact Nat.le_refl n
  | succ fuel ih =>
    intro n size
    unfold order_exp_go
    by_cases h : (2 : Int) ^ n < size ∧ n < MAX_ORDER
    · simp only [h, if_true]
      exact Nat.le_trans (Nat.le_succ n) (ih (n + 1) size)
    · simp only [h, if_false]
      exact Nat.le_refl n

theorem order_exp_go_le : ∀ (fuel n : Nat) (size : Int), n ≤ MAX_ORDER →
    order_exp_go fuel n size ≤ MAX_ORDER := by
  intro fuel
  induction fuel with
  | zero => intro n size h; exact h
  | succ fuel ih =>
    intro n size h
    unfold order_exp_go
    by_cases hc : (2 : Int) ^ n < size ∧ n < MAX_ORDER
    · simp only [hc, if_true]
      exact ih (n + 1) size hc.2
    · simp only [hc, if_false]
      exact h

theorem order_exp_ge (size : Int) : MIN_ORDER ≤ order_exp size :=
  order_exp_go_ge _ _ _

theorem order_exp_le (size : Int) : order_exp size ≤ MAX_ORDER :=
  order_exp_go_le _ _ _ (by decide)

/-! ### C3: the free-list scan of buddy_alloc -/

theorem scan_all_empty : ∀ (fuel order i : Nat) (st : BuddyState),
    (∀ k, i ≤ k → k ≤ MAX_ORDER → st.free_area.getD k [] = []) →
    buddy_alloc_scan fuel order i st = (none, st) := by
  intro fuel
  induction fuel with
  | zero => intro order i st _; rfl
  | succ fuel ih =>
    intro order i st h
    unfold buddy_alloc_scan
    by_cases hi : MAX_ORDER < i
    · simp only [hi, if_true]
    · simp only [hi, if_false]
      rw [h i (Nat.le_refl i) (Nat.le_of_not_lt hi)]
      exact ih order (i + 1) st (fun k hk1 hk2 => h k (by omega) hk2)

theorem scan_first_nonempty : ∀ (fuel order i : Nat) (st : BuddyState) (j idx : Nat)
    (rest : List Nat), i ≤ j → j ≤ MAX_ORDER → j < i + fuel →
    (∀ k, i ≤ k → k < j → st.free_area.getD k [] = []) →
    st.free_area.getD j [] = idx :: rest →
    (buddy_alloc_scan fuel order i st).1 = some (pga st idx).block_address := by
  intro fuel
  induction fuel with
  | zero => intro order i st j idx rest h1 _ h3 _ _; omega
  | succ fuel ih =>
    intro order i st j idx rest h1 h2 h3 hemp hj
    unfold buddy_alloc_scan
    by_cases hi : MAX_ORDER < i
    · omega
    · simp only [hi, if_false]
      by_cases hij : i = j
      · subst hij
        rw [hj]
        by_cases hio : i = order
        · simp only [hio, if_true]
        · simp only [hio, if_false]
      · rw [hemp i (Nat.le_refl i) (by omega)]
        exact ih order (i + 1) st j idx rest (by omega) h2 (by omega)
          (fun k hk1 hk2 => hemp k (by omega) hk2) hj

/-- C3: for a valid size with target order o = order_exp(s), buddy_alloc
scans the free lists from o upward through MAX_ORDER inclusive and uses the
first non-empty one; when every list in [o, MAX_ORDER] is empty it returns
the NULL sentinel and leaves the state untouched.  From a fresh buddy_init,
a first alloc(600000) succeeds and returns the arena base (offset 0), and a
second alloc(600000) returns the sentinel, again without mutating state. -/
theorem C3_scan_order_and_exhaustion :
    (∀ (size : Int) (st : BuddyState), 1 ≤ size → size ≤ 2 ^ 20 →
      (∀ k, order_exp size ≤ k → k ≤ MAX_ORDER → st.free_area.getD k [] = []) →
      buddy_alloc size st = (none, st)) ∧
    (∀ (size : Int) (st : BuddyState) (j idx : Nat) (rest : List Nat),
      1 ≤ size → size ≤ 2 ^ 20 →
      order_exp size ≤ j → j ≤ MAX_ORDER →
      (∀ k, order_exp size ≤ k → k < j → st.free_area.getD k [] = []) →
      st.free_area.getD j [] = idx :: rest →
      (buddy_alloc size st).1 = some (pga st idx).block_address) ∧
    (buddy_alloc 600000 initState).1 = some 0 ∧
    buddy_alloc 600000 (buddy_alloc 600000 initState).2 =
      (none, (buddy_alloc 600000 initState).2) := by
  refine ⟨?_, ?_, by decide, by decide⟩
  · intro size st _ _ h
    exact scan_all_empty _ _ _ _ h
  · intro size st j idx rest _ _ h1 h2 hemp hj
    exact scan_first_nonempty _ _ _ _ j idx rest h1 h2
      (by have := order_exp_le size; omega) hemp hj

/-- C3 witness: the general conjuncts applied at a concrete state (the
fresh arena, size 600000, whose target order is MAX_ORDER). -/
theorem C3_scan_order_and_exhaustion_witness :
    buddy_alloc 600000 (buddy_alloc 600000 initState).2 =
      (none, (buddy_alloc 600000 initState).2) ∧
    (buddy_alloc 600000 initState).1 = some (pga initState 0).block_address :=
  ⟨C3_scan_order_and_exhaustion.1 600000 (buddy_alloc 600000 initState).2
      (by decide) (by decide) (by decide),
   C3_scan_order_and_exhaustion.2.1 600000 initState 20 0 [] (by decide) (by decide)
      (by decide) (by decide) (by decide) (by decide)⟩

/-- C1: the partition invariant fails on the code.  Valid trace from
buddy_init: alloc(4096) returns offset 0 (live block: page 0, order 12),
alloc(4096) returns offset 4096 (live block: page 1, order 12).  At that
point free and live blocks still tile the arena, but the exact-fit path of
buddy_alloc never recorded order 12 on page 1, so buddy_free(4096) reads
block order -1 and indexes free_area[-1], outside the array: undefined
behavior (modelled as none), and the released block is recorded on no free
list, leaving a hole in the tiling. -/
theorem C1_partition_broken_by_unrecorded_order :
    (buddy_alloc 4096 initState).1 = some 0 ∧
    (buddy_alloc 4096 (buddy_alloc 4096 initState).2).1 = some 4096 ∧
    tilesArena (buddy_alloc 4096 (buddy_alloc 4096 initState).2).2 [(0, 12), (1, 12)] ∧
    (pga (buddy_alloc 4096 (buddy_alloc 4096 initState).2).2 1).block_size = -1 ∧
    buddy_free 4096 (buddy_alloc 4096 (buddy_alloc 4096 initState).2).2 = none := by
  refine ⟨by decide, by decide, ?_, by decide, by decide⟩
  intro p hp
  revert p
  decide

/-- C2: part_000's buddy_alloc has no size validation.  For the oversized
request 2^MAX_ORDER + 1 = 1048577 it hands out the whole arena (order is
capped at MAX_ORDER by order_exp) and mutates the free lists; for the
invalid request 0 it carves out and returns a minimum-order block.  The
claim requires the NULL sentinel and an unchanged state in both cases
(src/buddy.c lines 160-163 contain exactly that guard; part_000 dropped
it). -/
theorem C2_no_size_validation :
    (buddy_alloc 1048577 initState).1 = some 0 ∧
    (buddy_alloc 1048577 initState).2 ≠ initState ∧
    (buddy_alloc 0 initState).1 = some 0 ∧
    (buddy_alloc 0 initState).2 ≠ initState := by
  refine ⟨by decide, by decide, by decide, by decide⟩

/-- C6: split inserts each split-off right buddy into the free list for
order j-1 but never sets that page's order field (it stays -1 after
alloc(4096) split page 1 into free_area[12]); and the exact-fit path of
buddy_alloc returns a block without recording the target order on its page
record (page 1 still carries -1 after the second alloc(4096) returns it). -/
theorem C6_order_fields_not_recorded :
    ((buddy_alloc 4096 initState).2.free_area.getD 12 []) = [1] ∧
    (pga (buddy_alloc 4096 initState).2 1).block_size = -1 ∧
    (buddy_alloc 4096 (buddy_alloc 4096 initState).2).1 = some 4096 ∧
    (pga (buddy_alloc 4096 (buddy_alloc 4096 initState).2).2 1).block_size = -1 := by
  refine ⟨by decide, by decide, by decide, by decide⟩

/-- C7: after buddy_init, alloc(8192) returns offset 0 and alloc(8192)
returns offset 8192 via the exact-fit path, which leaves the order field
of page 2 at -1; buddy_free(8192) of that validly allocated block then
starts its merge loop at order -1, indexing free_area[-1] (undefined
behavior, modelled as none), so the released block becomes a member of no
free list, contradicting the claim. -/
theorem C7_released_block_on_no_free_list :
    (buddy_alloc 8192 initState).1 = some 0 ∧
    (buddy_alloc 8192 (buddy_alloc 8192 initState).2).1 = some 8192 ∧
    (pga (buddy_alloc 8192 (buddy_alloc 8192 initState).2).2 2).block_size = -1 ∧
    buddy_free 8192 (buddy_alloc 8192 (buddy_alloc 8192 initState).2).2 = none := by
  refine ⟨by decide, by decide, by decide, by decide⟩

/-- C10: for the address 4096 returned by the second buddy_alloc(4096)
(a valid, not-yet-freed allocation), the order that buddy_free reads from
the block's page record is -1, outside [MIN_ORDER, MAX_ORDER], so the merge
loop starts by indexing free_area[-1], outside the array bounds (modelled
as none). -/
theorem C10_free_reads_order_below_min :
    (buddy_alloc 4096 (buddy_alloc 4096 initState).2).1 = some 4096 ∧
    (pga (buddy_alloc 4096 (buddy_alloc 4096 initState).2).2
        (ADDR_TO_PAGE 4096)).block_size < (MIN_ORDER : Int) ∧
    buddy_free 4096 (buddy_alloc 4096 (buddy_alloc 4096 initState).2).2 = none := by
  refine ⟨by decide, by decide, by decide⟩

/-! ### C8: alloc-then-free round trip on an otherwise-idle allocator -/

/-- C8 counterexample: from the state right after buddy_init, alloc(4096)
followed by buddy_free of the returned address 0 does NOT restore the
allocator state exactly: the free-list membership is restored, but page 0's
recorded order field ends as the sentinel -1 (buddy_free writes -1 on the
inserted head), not the pre-alloc value MAX_ORDER. -/
theorem C8_order_field_not_restored :
    (buddy_alloc 4096 initState).1 = some 0 ∧
    buddy_free 0 (buddy_alloc 4096 initState).2 =
      some { free_area := initState.free_area
           , g_pages := initState.g_pages.set 0
               { block_size := -1, page_index := 0, block_address := 0 } } ∧
    buddy_free 0 (buddy_alloc 4096 initState).2 ≠ some initState ∧
    (pga initState 0).block_size = (MAX_ORDER : Int) := by
  exact ⟨by decide, by decide, by decide, by decide⟩

/-- C8 amended: for every valid size s, on the otherwise-idle allocator
(state right after buddy_init), buddy_alloc(s) returns the arena base and
buddy_free of it restores the free-list membership of every list and every
page record exactly, except that the freed head's (page 0's) order field is
left as the not-a-block-head sentinel -1 instead of its pre-alloc value
MAX_ORDER. -/
theorem C8_roundtrip_restores_lists (size : Int)
    (h1 : 1 ≤ size) (h2 : size ≤ 2 ^ 20) :
    (buddy_alloc size initState).1 = some 0 ∧
    buddy_free 0 (buddy_alloc size initState).2 =
      some { free_area := initState.free_area
           , g_pages := initState.g_pages.set 0
               { block_size := -1, page_index := 0, block_address := 0 } } := by
  have key : ∀ o : Nat, 12 ≤ o → o ≤ 20 →
      (buddy_alloc_scan (MAX_ORDER + 1) o o initState).1 = some 0 ∧
      buddy_free 0 (buddy_alloc_scan (MAX_ORDER + 1) o o initState).2 =
        some { free_area := initState.free_area
             , g_pages := initState.g_pages.set 0
                 { block_size := -1, page_index := 0, block_address := 0 } } := by
    intro o ho1 ho2
    interval_cases o <;> exact ⟨by decide, by decide⟩
  exact key (order_exp size) (order_exp_ge size) (order_exp_le size)

/-- C8 witness: the amended round trip at the concrete size 5000. -/
theorem C8_roundtrip_restores_lists_witness :
    (buddy_alloc 5000 initState).1 = some 0 ∧
    buddy_free 0 (buddy_alloc 5000 initState).2 =
      some { free_area := initState.free_area
           , g_pages := initState.g_pages.set 0
               { block_size := -1, page_index := 0, block_address := 0 } } :=
  C8_roundtrip_restores_lists 5000 (by decide) (by decide)

theorem splitSteps_eq : ∀ order targetOrder : Nat,
    splitSteps order targetOrder = order - targetOrder := by
  intro order
  induction order with
  | zero => intro t; unfold splitSteps; simp
  | succ o ih =>
    intro t
    unfold splitSteps
    by_cases h : o + 1 ≤ t
    · simp only [h, if_true]
      omega
    · simp only [h, if_false]
      rw [ih t]
      omega

theorem sumLen_set_cons : ∀ (l : List (List Nat)) (i : Nat) (x : Nat), i < l.length →
    sumLen (l.set i (x :: l.getD i [])) = sumLen l + 1 := by
  intro l
  induction l with
  | nil => intro i x h; simp at h
  | cons a t ih =>
    intro i x h
    cases i with
    | zero => simp [sumLen, List.set]; omega
    | succ i =>
      have h' : i < t.length := by simpa using h
      simp only [List.set, List.getD_cons_succ, sumLen, List.map_cons, List.sum_cons]
      have := ih i x h'
      simp only [sumLen] at this
      omega

theorem split_sumLen : ∀ (order targetOrder index : Nat) (faL : List (List Nat)),
    order ≤ MAX_ORDER → faL.length = MAX_ORDER + 1 →
    sumLen (split order targetOrder index faL) = sumLen faL + splitSteps order targetOrder := by
  intro order
  induction order with
  | zero =>
    intro t idx faL _ _
    unfold split splitSteps
    simp
  | succ o ih =>
    intro t idx faL ho hlen
    unfold split splitSteps
    by_cases h : o + 1 ≤ t
    · simp only [h, if_true]
      omega
    · simp only [h, if_false]
      rw [ih t idx _ (by omega) (by rw [List.length_set]; exact hlen)]
      rw [sumLen_set_cons _ o _ (by omega)]
      omega

theorem mergeSteps_le : ∀ (fuel i addr free_index : Nat) (st : BuddyState),
    addr < MEMORY_AREA →
    (∀ o < MAX_ORDER + 1, ∀ j ∈ st.free_area.getD o [],
      (pga st j).block_address < MEMORY_AREA) →
    mergeSteps fuel i addr free_index st ≤ MAX_ORDER - i := by
  intro fuel
  induction fuel with
  | zero => intro i addr fi st _ _; exact Nat.zero_le _
  | succ fuel ih =>
    intro i addr fi st haddr hmem
    unfold mergeSteps
    by_cases hi : MAX_ORDER < i
    · simp only [hi, if_true]; exact Nat.zero_le _
    · simp only [hi, if_false]
      cases hf : (st.free_area.getD i []).find?
          (fun j => (pga st j).block_address == BUDDY_ADDR addr i) with
      | none => exact Nat.zero_le _
      | some j =>
        have hjmem : j ∈ st.free_area.getD i [] := List.mem_of_find?_eq_some hf
        have hjaddr : (pga st j).block_address = BUDDY_ADDR addr i := by
          have := List.find?_some hf
          exact eq_of_beq this
        have hjlt : (pga st j).block_address < MEMORY_AREA :=
          hmem i (by omega) j hjmem
        have hne20 : i ≠ MAX_ORDER := by
          intro hie
          subst hie
          have hbit : (BUDDY_ADDR addr MAX_ORDER).testBit MAX_ORDER = true := by
            unfold BUDDY_ADDR
            rw [Nat.testBit_xor]
            have h1 : addr.testBit MAX_ORDER = false := Nat.testBit_lt_two_pow haddr
            have h2 : (2 ^ MAX_ORDER).testBit MAX_ORDER = true := Nat.testBit_two_pow_self
            rw [h1, h2]
            rfl
          have hge : MEMORY_AREA ≤ BUDDY_ADDR addr MAX_ORDER := by
            by_contra hcon
            push_neg at hcon
            have := Nat.testBit_lt_two_pow hcon
            rw [hbit] at this
            exact Bool.noConfusion this
          rw [hjaddr] at hjlt
          omega
        have hrec := ih (i + 1)
          (if (pga st j).block_address < addr then (pga st j).block_address else addr)
          (if (pga st j).block_address < addr then ADDR_TO_PAGE (pga st j).block_address else fi)
          { st with free_area := st.free_area.set i ((st.free_area.getD i []).erase j) }
          (by split <;> omega)
          (by
            intro o ho j' hj'
            by_cases hoi : o = i
            · have hilen : i < st.free_area.length := by
                by_contra hcon
                push_neg at hcon
                have hnil : st.free_area.getD i [] = [] := by
                  rw [List.getD_eq_getElem?_getD, List.getElem?_eq_none hcon]
                  rfl
                rw [hnil] at hjmem
                exact absurd hjmem (List.not_mem_nil j)
              rw [hoi, getD_set_self _ _ _ _ hilen] at hj'
              have hj'' : j' ∈ st.free_area.getD i [] := List.mem_of_mem_erase hj'
              exact hmem i (by omega) j' hj''
            · rw [getD_set_ne _ _ _ _ _ (fun he => hoi he.symm)] at hj'
              exact hmem o ho j' hj')
        dsimp only at hrec ⊢
        omega

/-- C9: every buddy_alloc and buddy_free terminates (the model's functions
are total), and the work is bounded: the split recursion performs exactly
order - targetOrder insertions (so at most MAX_ORDER - MIN_ORDER of them
whenever MIN_ORDER ≤ targetOrder and order ≤ MAX_ORDER, which holds at the
call site since order_exp always lands in [MIN_ORDER, MAX_ORDER]), and the
merge loop of buddy_free performs at most MAX_ORDER - MIN_ORDER buddy
removals when started at an order ≥ MIN_ORDER on in-arena addresses. -/
theorem C9_split_and_merge_bounded :
    (∀ order targetOrder : Nat, splitSteps order targetOrder = order - targetOrder) ∧
    (∀ order targetOrder : Nat, MIN_ORDER ≤ targetOrder → order ≤ MAX_ORDER →
      splitSteps order targetOrder ≤ MAX_ORDER - MIN_ORDER) ∧
    (∀ (order targetOrder index : Nat) (faL : List (List Nat)),
      order ≤ MAX_ORDER → faL.length = MAX_ORDER + 1 →
      sumLen (split order targetOrder index faL) = sumLen faL + splitSteps order targetOrder) ∧
    (∀ size : Int, MIN_ORDER ≤ order_exp size ∧ order_exp size ≤ MAX_ORDER) ∧
    (∀ (i addr free_index : Nat) (st : BuddyState), MIN_ORDER ≤ i →
      addr < MEMORY_AREA →
      (∀ o < MAX_ORDER + 1, ∀ j ∈ st.free_area.getD o [],
        (pga st j).block_address < MEMORY_AREA) →
      mergeSteps (MAX_ORDER + 1) i addr free_index st ≤ MAX_ORDER - MIN_ORDER) := by
  refine ⟨splitSteps_eq, ?_, split_sumLen, ?_, ?_⟩
  · intro order t h1 h2
    rw [splitSteps_eq]
    omega
  · intro size
    exact ⟨order_exp_ge size, order_exp_le size⟩
  · intro i addr fi st hi haddr hmem
    have := mergeSteps_le (MAX_ORDER + 1) i addr fi st haddr hmem
    omega

/-- C9 witness: the bounds applied at concrete inputs (a split of the whole
arena down to MIN_ORDER, and the merge loop started at order MIN_ORDER on
the post-init state with address 0). -/
theorem C9_split_and_merge_bounded_witness :
    splitSteps MAX_ORDER MIN_ORDER ≤ MAX_ORDER - MIN_ORDER ∧
    sumLen (split MAX_ORDER MIN_ORDER 0 initState.free_area) =
      sumLen initState.free_area + splitSteps MAX_ORDER MIN_ORDER ∧
    mergeSteps (MAX_ORDER + 1) MIN_ORDER 0 0 initState ≤ MAX_ORDER - MIN_ORDER :=
  ⟨C9_split_and_merge_bounded.2.1 MAX_ORDER MIN_ORDER (by decide) (by decide),
   C9_split_and_merge_bounded.2.2.1 MAX_ORDER MIN_ORDER 0 initState.free_area
     (by decide) (by decide),
   C9_split_and_merge_bounded.2.2.2.2 MIN_ORDER 0 0 initState (by decide) (by decide)
     (by decide)⟩

theorem inv_init : BuddyInv initState [] := by
  refine ⟨by decide, by decide, by decide, by decide, by decide, by decide, by decide,
    by decide, by decide, ?_, List.Pairwise.nil, ?_, ?_⟩
  · intro ao hao
    exact absurd hao (List.not_mem_nil ao)
  · intro ao hao
    exact absurd hao (List.not_mem_nil ao)
  · intro ao hao
    exact absurd hao (List.not_mem_nil ao)

theorem getElem?_eq_some_getD {α : Type} (l : List α) (n : Nat) (d : α)
    (h : n < l.length) : l[n]? = some (l.getD n d) := by
  rw [List.getD_eq_getElem?_getD, List.getElem?_eq_getElem h]
  rfl

/-- buddy_init fully resets any state whose free_area has the C array's
length and whose never-touched low lists are empty (as they are in every
reachable state): the result is exactly the post-init state. -/
theorem buddy_init_eq (s : BuddyState)
    (hlen : s.free_area.length = MAX_ORDER + 1)
    (hlow : ∀ o < MIN_ORDER, s.free_area.getD o [] = []) :
    buddy_init s = initState := by
  have hr : List.range' MIN_ORDER (MAX_ORDER - MIN_ORDER + 1) =
      [12, 13, 14, 15, 16, 17, 18, 19, 20] := by decide
  have hlen21 : s.free_area.length = 21 := hlen
  have hsome : ∀ k, k < 12 → s.free_area[k]? = some [] := by
    intro k hk
    rw [List.getElem?_eq_getElem (by omega)]
    rw [← List.getD_eq_getElem s.free_area [] (by omega), hlow k hk]
  have hini : ∀ k, k < 21 →
      initState.free_area[k]? = some (if k = 20 then [0] else []) := by decide
  have hg : (buddy_init s).g_pages = initState.g_pages := rfl
  have hf : (buddy_init s).free_area = initState.free_area := by
    show ((((List.range' MIN_ORDER (MAX_ORDER - MIN_ORDER + 1)).foldl
        (fun l i => l.set i []) s.free_area)).set MAX_ORDER [0]) = _
    rw [hr]
    simp only [List.foldl_cons, List.foldl_nil]
    apply List.ext_getElem?
    intro n
    by_cases hn : n < MAX_ORDER + 1
    · have hn21 : n < 21 := hn
      interval_cases n <;>
        simp +decide only [MAX_ORDER_eq, List.getElem?_set, List.length_set, hlen21,
          if_true, if_false, hini] <;>
        exact hsome _ (by decide)
    · rw [List.getElem?_eq_none (by simp [List.length_set, hlen21, MAX_ORDER_eq]; omega),
        List.getElem?_eq_none (by
          have hfi : initState.free_area.length = MAX_ORDER + 1 := by decide
          omega)]
  have hmk : buddy_init s = ⟨(buddy_init s).free_area, (buddy_init s).g_pages⟩ := rfl
  rw [hmk, hf, hg]

/-! ### Arithmetic bridges between byte addresses and page indices -/

theorem blockPages_pos (o : Nat) : 0 < blockPages o := Nat.pos_pow_of_pos _ (by decide)

theorem blockPages_mul {o : Nat} (h : MIN_ORDER ≤ o) :
    blockPages o * PAGE_SIZE = 2 ^ o := by
  unfold blockPages PAGE_SIZE
  rw [← Nat.pow_add]
  congr 1
  omega

theorem blockPages_succ {o : Nat} (h : MIN_ORDER ≤ o) :
    blockPages (o + 1) = 2 * blockPages o := by
  unfold blockPages
  rw [← Nat.pow_succ']
  congr 1
  omega

theorem blockPages_dvd {o o' : Nat} (h : o ≤ o') : blockPages o ∣ blockPages o' := by
  unfold blockPages
  exact Nat.pow_dvd_pow 2 (by omega)

theorem addr_page_cancel (P : Nat) : ADDR_TO_PAGE (P * PAGE_SIZE) = P := by
  unfold ADDR_TO_PAGE
  exact Nat.mul_div_cancel P (by decide)

theorem byte_to_page {A o : Nat} (h12 : MIN_ORDER ≤ o) (ho : o ≤ MAX_ORDER)
    (hal : 2 ^ o ∣ A) (hrange : A + 2 ^ o ≤ MEMORY_AREA) :
    A = ADDR_TO_PAGE A * PAGE_SIZE ∧ blockPages o ∣ ADDR_TO_PAGE A ∧
    ADDR_TO_PAGE A + blockPages o ≤ PAGE_NUM := by
  have hps : PAGE_SIZE ∣ A := dvd_trans (Nat.pow_dvd_pow 2 h12) hal
  have hA : A = ADDR_TO_PAGE A * PAGE_SIZE := by
    unfold ADDR_TO_PAGE
    rw [Nat.div_mul_cancel hps]
  refine ⟨hA, ?_, ?_⟩
  · have h1 : blockPages o * PAGE_SIZE ∣ ADDR_TO_PAGE A * PAGE_SIZE := by
      rw [blockPages_mul h12, ← hA]
      exact hal
    exact (Nat.mul_dvd_mul_iff_right (show 0 < PAGE_SIZE by decide)).mp h1
  · have h1 : (ADDR_TO_PAGE A + blockPages o) * PAGE_SIZE ≤ PAGE_NUM * PAGE_SIZE := by
      rw [Nat.add_mul, blockPages_mul h12, ← hA]
      exact le_trans hrange (by decide)
    exact Nat.le_of_mul_le_mul_right h1 (by decide)

theorem page_to_byte {p o : Nat} (h12 : MIN_ORDER ≤ o)
    (hal : blockPages o ∣ p) (hrange : p + blockPages o ≤ PAGE_NUM) :
    2 ^ o ∣ p * PAGE_SIZE ∧ p * PAGE_SIZE + 2 ^ o ≤ MEMORY_AREA := by
  constructor
  · rw [← blockPages_mul h12]
    exact Nat.mul_dvd_mul_right hal PAGE_SIZE
  · have h1 : (p + blockPages o) * PAGE_SIZE ≤ PAGE_NUM * PAGE_SIZE :=
      Nat.mul_le_mul_right PAGE_SIZE hrange
    rw [Nat.add_mul, blockPages_mul h12] at h1
    exact le_trans h1 (by decide)

theorem page_mul_le_iff {a b : Nat} : a * PAGE_SIZE ≤ b * PAGE_SIZE ↔ a ≤ b := by
  constructor
  · intro h
    exact Nat.le_of_mul_le_mul_right h (by decide)
  · intro h
    exact Nat.mul_le_mul_right PAGE_SIZE h

theorem page_ne_of_disjoint {A P o2 i : Nat} (hA : 2 ^ o2 ∣ A) (ho2 : MIN_ORDER ≤ o2)
    (hd : A + 2 ^ o2 ≤ P * PAGE_SIZE ∨ P * PAGE_SIZE + 2 ^ i ≤ A) :
    ADDR_TO_PAGE A ≠ P := by
  have hps : PAGE_SIZE ∣ A := dvd_trans (Nat.pow_dvd_pow 2 ho2) hA
  have hA' : A = ADDR_TO_PAGE A * PAGE_SIZE := by
    unfold ADDR_TO_PAGE
    rw [Nat.div_mul_cancel hps]
  have hp2 : (4096 : Nat) ≤ 2 ^ o2 := by
    calc (4096 : Nat) = 2 ^ 12 := by decide
    _ ≤ 2 ^ o2 := Nat.pow_le_pow_right (by decide) ho2
  intro he
  rw [he] at hA'
  cases hd with
  | inl h => omega
  | inr h =>
    have hip : (0 : Nat) < 2 ^ i := Nat.pos_pow_of_pos _ (by decide)
    omega

/-! ### XOR facts used by the buddy address computation -/

theorem xor_mul_pagesize (a b : Nat) :
    (a * PAGE_SIZE) ^^^ (b * PAGE_SIZE) = (a ^^^ b) * PAGE_SIZE := by
  have hs : ∀ c : Nat, c * PAGE_SIZE = c <<< 12 := by
    intro c
    rw [Nat.shiftLeft_eq]
    rfl
  rw [hs, hs, hs]
  apply Nat.eq_of_testBit_eq
  intro n
  rw [Nat.testBit_xor, Nat.testBit_shiftLeft, Nat.testBit_shiftLeft, Nat.testBit_shiftLeft,
    Nat.testBit_xor]
  by_cases h : 12 ≤ n
  · simp [h, ge_iff_le]
  · simp [h, ge_iff_le]

theorem buddy_addr_page {P i : Nat} (hi : MIN_ORDER ≤ i) :
    BUDDY_ADDR (P * PAGE_SIZE) i = (P ^^^ 2 ^ (i - MIN_ORDER)) * PAGE_SIZE := by
  unfold BUDDY_ADDR
  have h2 : (2 : Nat) ^ i = 2 ^ (i - MIN_ORDER) * PAGE_SIZE := by
    unfold PAGE_SIZE
    rw [← Nat.pow_add]
    congr 1
    have h12 : MIN_ORDER = 12 := rfl
    omega
  rw [h2, xor_mul_pagesize]

theorem split_buddy_page {index o : Nat} (ho : MIN_ORDER ≤ o) :
    ADDR_TO_PAGE (BUDDY_ADDR (PAGE_TO_ADDR index) o) = index ^^^ 2 ^ (o - MIN_ORDER) := by
  unfold PAGE_TO_ADDR
  rw [buddy_addr_page ho, addr_page_cancel]

theorem xor_page_split : ∀ p < PAGE_NUM, ∀ k < 8, 2 ^ (k + 1) ∣ p →
    p ^^^ 2 ^ k = p + 2 ^ k := by decide

theorem xor_page_cases : ∀ p < PAGE_NUM, ∀ k < 9, 2 ^ k ∣ p →
    (p ^^^ 2 ^ k = p + 2 ^ k ∧ 2 ^ (k + 1) ∣ p) ∨
    ((p ^^^ 2 ^ k) + 2 ^ k = p ∧ 2 ^ (k + 1) ∣ (p ^^^ 2 ^ k)) := by decide

/-! ### Invariant preservation helpers -/

theorem PAGE_TO_ADDR_def (p : Nat) : PAGE_TO_ADDR p = p * PAGE_SIZE := rfl

theorem getD_default_of_le {α : Type} (l : List α) (d : α) (n : Nat)
    (h : l.length ≤ n) : l.getD n d = d := by
  rw [List.getD_eq_getElem?_getD, List.getElem?_eq_none h]
  rfl

theorem getD_nonempty_lt {α : Type} (l : List (List α)) (n : Nat)
    (h : l.getD n [] ≠ []) : n < l.length := by
  by_contra hc
  push_neg at hc
  exact h (getD_default_of_le l [] n hc)

theorem mem_set_getD {l : List (List Nat)} {i o : Nat} {x : List Nat} {a : Nat}
    (h : a ∈ (l.set i x).getD o []) :
    (o = i ∧ a ∈ x) ∨ (o ≠ i ∧ a ∈ l.getD o []) := by
  by_cases ho : o = i
  · subst ho
    by_cases hil : o < l.length
    · rw [getD_set_self _ _ _ _ hil] at h
      exact Or.inl ⟨rfl, h⟩
    · rw [getD_default_of_le _ _ _ (by
        rw [List.length_set]
        exact Nat.le_of_not_lt hil)] at h
      exact absurd h (List.not_mem_nil a)
  · exact Or.inr ⟨ho, by rwa [getD_set_ne _ _ _ _ _ (fun he => ho he.symm)] at h⟩

theorem page_disj_to_byte {p o q o' : Nat} (hpo : MIN_ORDER ≤ o) (hqo : MIN_ORDER ≤ o')
    (h : p + blockPages o ≤ q ∨ q + blockPages o' ≤ p) :
    p * PAGE_SIZE + 2 ^ o ≤ q * PAGE_SIZE ∨ q * PAGE_SIZE + 2 ^ o' ≤ p * PAGE_SIZE := by
  cases h with
  | inl h =>
    left
    rw [← blockPages_mul hpo, ← Nat.add_mul]
    exact Nat.mul_le_mul_right PAGE_SIZE h
  | inr h =>
    right
    rw [← blockPages_mul hqo, ← Nat.add_mul]
    exact Nat.mul_le_mul_right PAGE_SIZE h

/-- Membership in a free list of order below MIN_ORDER is impossible. -/
theorem no_low_mem {st : BuddyState} {L : List (Nat × Nat)} (hInv : BuddyInv st L)
    {o p : Nat} (ho : o < MIN_ORDER) (hp : p ∈ st.free_area.getD o []) : False := by
  rw [hInv.low_empty o ho] at hp
  exact absurd hp (List.not_mem_nil p)

/-- Unlinking the head of free list i turns that free block into a live
block of order i: the allocator invariant is preserved with the new live
entry at the head's address. -/
theorem inv_pop_head (st : BuddyState) (L : List (Nat × Nat)) (i idx : Nat)
    (rest : List Nat) (hInv : BuddyInv st L) (h12 : MIN_ORDER ≤ i) (h20 : i ≤ MAX_ORDER)
    (hl : st.free_area.getD i [] = idx :: rest) :
    BuddyInv { st with free_area := st.free_area.set i rest }
      ((PAGE_TO_ADDR idx, i) :: L) := by
  have hmem : idx ∈ st.free_area.getD i [] := by
    rw [hl]
    exact List.mem_cons_self idx rest
  have hfb := hInv.fb_ok i (by omega) idx hmem
  have hbyte := page_to_byte h12 hfb.1 hfb.2
  have hnodup_i : (idx :: rest).Nodup := by
    rw [← hl]
    exact hInv.fb_nodup i (by omega)
  have hidx_rest : idx ∉ rest := (List.nodup_cons.mp hnodup_i).1
  have hsub : ∀ o a, a ∈ (st.free_area.set i rest).getD o [] →
      a ∈ st.free_area.getD o [] := by
    intro o a h
    rcases mem_set_getD h with ⟨ho, ha⟩ | ⟨_, ha⟩
    · subst ho
      rw [hl]
      exact List.mem_cons_of_mem _ ha
    · exact ha
  have hoge : ∀ o (a : Nat), a ∈ st.free_area.getD o [] → MIN_ORDER ≤ o := by
    intro o a ha
    by_contra hc
    exact no_low_mem hInv (Nat.lt_of_not_le hc) ha
  refine ⟨?_, hInv.pglen, hInv.canon, ?_, ?_, ?_, ?_, hInv.bs_align, ?_, ?_, ?_, ?_, ?_⟩
  · rw [List.length_set]
    exact hInv.falen
  · intro o ho
    rw [getD_set_ne _ _ _ _ _ (by omega)]
    exact hInv.low_empty o ho
  · intro o ho
    by_cases hoi : o = i
    · subst hoi
      have hil : o < st.free_area.length :=
        getD_nonempty_lt _ _ (by rw [hl]; exact List.cons_ne_nil idx rest)
      rw [getD_set_self _ _ _ _ hil]
      exact hnodup_i.of_cons
    · rw [getD_set_ne _ _ _ _ _ (fun he => hoi he.symm)]
      exact hInv.fb_nodup o ho
  · intro o ho p hp
    exact hInv.fb_ok o ho p (hsub o p hp)
  · intro o ho o' ho' p hp q hq hne
    exact hInv.fb_disj o ho o' ho' p (hsub o p hp) q (hsub o' q hq) hne
  · intro o ho p hp
    exact hInv.fb_bs o ho p (hsub o p hp)
  · intro ao hao
    rcases List.mem_cons.mp hao with hh | ht
    · subst hh
      rw [PAGE_TO_ADDR_def]
      exact ⟨h12, h20, hbyte.1, hbyte.2⟩
    · exact hInv.live_ok ao ht
  · refine List.pairwise_cons.mpr ⟨?_, hInv.live_disj⟩
    intro ao hao
    rcases hInv.live_fb ao hao i (by omega) idx hmem with h | h
    · right
      rw [PAGE_TO_ADDR_def] at h ⊢
      exact h
    · left
      rw [PAGE_TO_ADDR_def] at h ⊢
      exact h
  · intro ao hao o ho r hr
    rcases List.mem_cons.mp hao with hh | ht
    · subst hh
      have hro := hoge o r (hsub o r hr)
      have hguard : ¬(i = o ∧ idx = r) := by
        rintro ⟨hoe, hre⟩
        subst hoe
        subst hre
        rcases mem_set_getD hr with ⟨_, ha⟩ | ⟨hne, _⟩
        · exact hidx_rest ha
        · exact hne rfl
      have hdp := hInv.fb_disj i (by omega) o (by omega) idx hmem r (hsub o r hr) hguard
      have := page_disj_to_byte h12 hro hdp
      rw [PAGE_TO_ADDR_def]
      exact this
    · exact hInv.live_fb ao ht o ho r (hsub o r hr)
  · intro ao hao
    rcases List.mem_cons.mp hao with hh | ht
    · subst hh
      show (pga st (ADDR_TO_PAGE (PAGE_TO_ADDR idx))).block_size ≤ _
      rw [PAGE_TO_ADDR_def, addr_page_cancel]
      exact hInv.fb_bs i (by omega) idx hmem
    · exact hInv.live_bs ao ht

theorem byte_disj_to_page {p o q o' : Nat} (hpo : MIN_ORDER ≤ o) (hqo : MIN_ORDER ≤ o')
    (h : p * PAGE_SIZE + 2 ^ o ≤ q * PAGE_SIZE ∨ q * PAGE_SIZE + 2 ^ o' ≤ p * PAGE_SIZE) :
    p + blockPages o ≤ q ∨ q + blockPages o' ≤ p := by
  cases h with
  | inl h =>
    left
    rw [← blockPages_mul hpo, ← Nat.add_mul] at h
    exact Nat.le_of_mul_le_mul_right h (by decide)
  | inr h =>
    right
    rw [← blockPages_mul hqo, ← Nat.add_mul] at h
    exact Nat.le_of_mul_le_mul_right h (by decide)

/-- Writing an order b ≤ j into the page record heading a live order-j
block preserves the invariant (the block's pages are disjoint from every
free block and every other live block, so no other clause changes). -/
theorem inv_set_bs (st : BuddyState) (L : List (Nat × Nat)) (p j b : Nat)
    (hb12 : MIN_ORDER ≤ b) (hbj : b ≤ j)
    (hInv : BuddyInv st ((PAGE_TO_ADDR p, j) :: L)) :
    BuddyInv { st with g_pages := st.g_pages.set p ({ pga st p with block_size := (b : Int) }) } ((PAGE_TO_ADDR p, j) :: L) := by
  have hhead := hInv.live_ok (PAGE_TO_ADDR p, j) (List.mem_cons_self _ _)
  rw [PAGE_TO_ADDR_def] at hhead
  have hj20 : j ≤ MAX_ORDER := hhead.2.1
  have hj12 : MIN_ORDER ≤ j := hhead.1
  have hpg := byte_to_page hj12 hj20 hhead.2.2.1 hhead.2.2.2
  rw [addr_page_cancel] at hpg
  have hpal : blockPages j ∣ p := hpg.2.1
  have hprange : p + blockPages j ≤ PAGE_NUM := hpg.2.2
  have hplt : p < PAGE_NUM := by
    have := blockPages_pos j
    omega
  have hpga_p : pga { st with g_pages := st.g_pages.set p ({ pga st p with block_size := (b : Int) }) } p = { pga st p with block_size := (b : Int) } := by
    show (st.g_pages.set p _).getD p default = _
    exact getD_set_self _ _ _ _ (by rw [hInv.pglen]; exact hplt)
  have hpga_ne : ∀ x, x ≠ p → pga { st with g_pages := st.g_pages.set p ({ pga st p with block_size := (b : Int) }) } x = pga st x := by
    intro x hx
    show (st.g_pages.set p _).getD x default = _
    exact getD_set_ne _ _ _ _ _ (fun he => hx he.symm)
  have hnotfree : ∀ o < MAX_ORDER + 1, ∀ r ∈ st.free_area.getD o [], r ≠ p := by
    intro o ho r hr he
    subst he
    have hro : MIN_ORDER ≤ o := by
      by_contra hc
      exact no_low_mem hInv (Nat.lt_of_not_le hc) hr
    have hlf := hInv.live_fb (PAGE_TO_ADDR r, j) (List.mem_cons_self _ _) o ho r hr
    have h2j : (0 : Nat) < 2 ^ j := Nat.pos_pow_of_pos _ (by decide)
    have h2o : (0 : Nat) < 2 ^ o := Nat.pos_pow_of_pos _ (by decide)
    simp only [PAGE_TO_ADDR_def] at hlf
    omega
  have htailpage : ∀ ao ∈ L, ADDR_TO_PAGE ao.1 ≠ p := by
    intro ao hao
    have hdisj := (List.pairwise_cons.mp hInv.live_disj).1 ao hao
    have hlo := hInv.live_ok ao (List.mem_cons_of_mem _ hao)
    simp only [PAGE_TO_ADDR_def] at hdisj
    refine @page_ne_of_disjoint ao.1 p ao.2 j hlo.2.2.1 hlo.1 ?_
    rcases hdisj with hcase | hcase
    · exact Or.inr hcase
    · exact Or.inl hcase
  refine ⟨hInv.falen, ?_, ?_, hInv.low_empty, hInv.fb_nodup, hInv.fb_ok, hInv.fb_disj,
    ?_, ?_, hInv.live_ok, hInv.live_disj, hInv.live_fb, ?_⟩
  · show (st.g_pages.set p _).length = PAGE_NUM
    rw [List.length_set]
    exact hInv.pglen
  · intro x hx
    by_cases hxp : x = p
    · subst hxp
      rw [hpga_p]
      exact hInv.canon x hx
    · rw [hpga_ne x hxp]
      exact hInv.canon x hx
  · intro x hx
    by_cases hxp : x = p
    · subst hxp
      rw [hpga_p]
      right
      refine ⟨b, by omega, rfl, hb12, ?_, ?_⟩
      · exact dvd_trans (blockPages_dvd hbj) hpal
      · have : blockPages b ≤ blockPages j :=
          Nat.le_of_dvd (blockPages_pos j) (blockPages_dvd hbj)
        omega
    · rw [hpga_ne x hxp]
      exact hInv.bs_align x hx
  · intro o ho r hr
    rw [hpga_ne r (hnotfree o ho r hr)]
    exact hInv.fb_bs o ho r hr
  · intro ao hao
    rcases List.mem_cons.mp hao with hh | ht
    · subst hh
      show (pga _ (ADDR_TO_PAGE (PAGE_TO_ADDR p))).block_size ≤ _
      rw [PAGE_TO_ADDR_def, addr_page_cancel, hpga_p]
      show (b : Int) ≤ (j : Int)
      omega
    · rw [hpga_ne _ (htailpage ao ht)]
      exact hInv.live_bs ao (List.mem_cons_of_mem _ ht)


/-- One halving step of split: inserting the right buddy (at page
p + blockPages (j-1)) into free list j-1 turns a live order-j block at
page p (whose record already carries an order ≤ j-1) into a live
order-(j-1) block plus a free order-(j-1) buddy, preserving the
invariant. -/
theorem inv_split_step (st : BuddyState) (L : List (Nat × Nat)) (j o p : Nat)
    (ho : MIN_ORDER ≤ o) (hoj : o < j) (hj : j ≤ MAX_ORDER)
    (hbs : (pga st p).block_size ≤ (o : Int))
    (hInv : BuddyInv st ((PAGE_TO_ADDR p, j) :: L)) :
    BuddyInv { st with free_area := st.free_area.set (j - 1) ((p + blockPages (j - 1)) :: st.free_area.getD (j - 1) []) } ((PAGE_TO_ADDR p, j - 1) :: L) := by
  obtain ⟨jm, rfl⟩ : ∃ jm, j = jm + 1 := ⟨j - 1, by omega⟩
  simp only [Nat.add_sub_cancel]
  have hjm12 : MIN_ORDER ≤ jm := by omega
  have hjm20 : jm ≤ MAX_ORDER := by omega
  have hhead := hInv.live_ok (PAGE_TO_ADDR p, jm + 1) (List.mem_cons_self _ _)
  simp only [PAGE_TO_ADDR_def] at hhead
  have hj12 : MIN_ORDER ≤ jm + 1 := hhead.1
  have hj20 : jm + 1 ≤ MAX_ORDER := hhead.2.1
  have hpg := byte_to_page hj12 hj20 hhead.2.2.1 hhead.2.2.2
  rw [addr_page_cancel] at hpg
  have hpal : blockPages (jm + 1) ∣ p := hpg.2.1
  have hprange : p + blockPages (jm + 1) ≤ PAGE_NUM := hpg.2.2
  have hbp2 : blockPages (jm + 1) = 2 * blockPages jm := blockPages_succ hjm12
  have hbppos : 0 < blockPages jm := blockPages_pos jm
  have hqal : blockPages jm ∣ (p + blockPages jm) :=
    Nat.dvd_add (dvd_trans (blockPages_dvd (by omega)) hpal) dvd_rfl
  have hqrange : (p + blockPages jm) + blockPages jm ≤ PAGE_NUM := by omega
  have hqlt : p + blockPages jm < PAGE_NUM := by omega
  have hoge : ∀ o' (a : Nat), a ∈ st.free_area.getD o' [] → MIN_ORDER ≤ o' := by
    intro o' a ha
    by_contra hc
    exact no_low_mem hInv (Nat.lt_of_not_le hc) ha
  have hpdisj : ∀ o' < MAX_ORDER + 1, ∀ r ∈ st.free_area.getD o' [],
      p + blockPages (jm + 1) ≤ r ∨ r + blockPages o' ≤ p := by
    intro o' ho' r hr
    have hro := hoge o' r hr
    have hlf := hInv.live_fb (PAGE_TO_ADDR p, jm + 1) (List.mem_cons_self _ _) o' ho' r hr
    simp only [PAGE_TO_ADDR_def] at hlf
    exact byte_disj_to_page hj12 hro hlf
  have hqdisj : ∀ o' < MAX_ORDER + 1, ∀ r ∈ st.free_area.getD o' [],
      (p + blockPages jm) + blockPages jm ≤ r ∨ r + blockPages o' ≤ (p + blockPages jm) := by
    intro o' ho' r hr
    rcases hpdisj o' ho' r hr with h1 | h2
    · left
      omega
    · right
      omega
  have hq_not_mem : (p + blockPages jm) ∉ st.free_area.getD jm [] := by
    intro hmem
    rcases hqdisj jm (by omega) _ hmem with h1 | h2 <;> omega
  have hmem_char : ∀ o' a, a ∈ (st.free_area.set jm ((p + blockPages jm) :: st.free_area.getD jm [])).getD o' [] →
      (o' = jm ∧ a = p + blockPages jm) ∨ a ∈ st.free_area.getD o' [] := by
    intro o' a h
    rcases mem_set_getD h with ⟨hoe, ha⟩ | ⟨_, ha⟩
    · rcases List.mem_cons.mp ha with h1 | h2
      · exact Or.inl ⟨hoe, h1⟩
      · subst hoe
        exact Or.inr h2
    · exact Or.inr ha
  have hjlen : jm < st.free_area.length := by
    rw [hInv.falen]
    omega
  have hq_addr : (p + blockPages jm) * PAGE_SIZE = p * PAGE_SIZE + 2 ^ jm := by
    rw [Nat.add_mul, blockPages_mul hjm12]
  have hj_pow : (2 : Nat) ^ (jm + 1) = 2 ^ jm + 2 ^ jm := by
    rw [Nat.pow_succ]
    omega
  refine ⟨?_, hInv.pglen, hInv.canon, ?_, ?_, ?_, ?_, hInv.bs_align, ?_, ?_, ?_, ?_, ?_⟩
  · rw [List.length_set]
    exact hInv.falen
  · intro o' ho'
    rw [getD_set_ne _ _ _ _ _ (by omega)]
    exact hInv.low_empty o' ho'
  · intro o' ho'
    by_cases hoe : o' = jm
    · subst hoe
      rw [getD_set_self _ _ _ _ hjlen]
      exact List.nodup_cons.mpr ⟨hq_not_mem, hInv.fb_nodup o' ho'⟩
    · rw [getD_set_ne _ _ _ _ _ (fun he => hoe he.symm)]
      exact hInv.fb_nodup o' ho'
  · intro o' ho' a ha
    rcases hmem_char o' a ha with ⟨hoe, hae⟩ | hold
    · rw [hoe, hae]
      exact ⟨hqal, hqrange⟩
    · exact hInv.fb_ok o' ho' a hold
  · intro o1 h1 o2 h2 a ha b hb hne
    rcases hmem_char o1 a ha with ⟨hoe1, hae1⟩ | haold
    · rcases hmem_char o2 b hb with ⟨hoe2, hae2⟩ | hbold
      · exact absurd ⟨hoe1.trans hoe2.symm, hae1.trans hae2.symm⟩ hne
      · rw [hoe1, hae1]
        exact hqdisj o2 h2 b hbold
    · rcases hmem_char o2 b hb with ⟨hoe2, hae2⟩ | hbold
      · rw [hoe2, hae2]
        rcases hqdisj o1 h1 a haold with h | h
        · exact Or.inr h
        · exact Or.inl h
      · exact hInv.fb_disj o1 h1 o2 h2 a haold b hbold hne
  · intro o' ho' a ha
    rcases hmem_char o' a ha with ⟨hoe, hae⟩ | hold
    · rw [hoe, hae]
      show (pga st (p + blockPages jm)).block_size ≤ (jm : Int)
      rcases hInv.bs_align (p + blockPages jm) hqlt with hm1 | ⟨b, hb21, hbeq, hb12, hbal, hbrange⟩
      · rw [hm1]
        omega
      · rw [hbeq]
        have hble : b ≤ jm := by
          by_contra hc
          push_neg at hc
          have hd1 : blockPages (jm + 1) ∣ (p + blockPages jm) :=
            dvd_trans (blockPages_dvd (by omega)) hbal
          have hd2 : blockPages (jm + 1) ∣ blockPages jm := by
            have h3 : (p + blockPages jm) - p = blockPages jm := by omega
            rw [← h3]
            exact Nat.dvd_sub' hd1 hpal
          unfold blockPages at hd2
          have := (Nat.pow_dvd_pow_iff_le_right (by decide : 1 < 2)).mp hd2
          omega
        omega
    · exact hInv.fb_bs o' ho' a hold
  · intro ao hao
    rcases List.mem_cons.mp hao with hh | ht
    · subst hh
      simp only [PAGE_TO_ADDR_def]
      refine ⟨hjm12, hjm20, ?_, ?_⟩
      · exact dvd_trans (Nat.pow_dvd_pow 2 (by omega)) hhead.2.2.1
      · have hpow : (2 : Nat) ^ jm ≤ 2 ^ (jm + 1) := Nat.pow_le_pow_right (by decide) (by omega)
        omega
    · exact hInv.live_ok ao (List.mem_cons_of_mem _ ht)
  · refine List.pairwise_cons.mpr ⟨?_, hInv.live_disj.of_cons⟩
    intro ao hao
    have hd := (List.pairwise_cons.mp hInv.live_disj).1 ao hao
    simp only [PAGE_TO_ADDR_def] at hd ⊢
    have hpow : (2 : Nat) ^ jm ≤ 2 ^ (jm + 1) := Nat.pow_le_pow_right (by decide) (by omega)
    rcases hd with h | h
    · left
      omega
    · right
      omega
  · intro ao hao o' ho' r hr
    rcases List.mem_cons.mp hao with hh | ht
    · subst hh
      rcases hmem_char o' r hr with ⟨hoe, hae⟩ | hold
      · rw [hoe, hae]
        simp only [PAGE_TO_ADDR_def]
        left
        rw [hq_addr]
      · have hro := hoge o' r hold
        have hlf := hInv.live_fb (PAGE_TO_ADDR p, jm + 1) (List.mem_cons_self _ _) o' ho' r hold
        simp only [PAGE_TO_ADDR_def] at hlf ⊢
        rcases hlf with h | h
        · left
          have hpow : (2 : Nat) ^ jm ≤ 2 ^ (jm + 1) := Nat.pow_le_pow_right (by decide) (by omega)
          omega
        · right
          exact h
    · rcases hmem_char o' r hr with ⟨hoe, hae⟩ | hold
      · rw [hoe, hae]
        have hd := (List.pairwise_cons.mp hInv.live_disj).1 ao ht
        simp only [PAGE_TO_ADDR_def] at hd ⊢
        rcases hd with h | h
        · right
          rw [hq_addr]
          omega
        · left
          have hpos : (0 : Nat) < 2 ^ jm := Nat.pos_pow_of_pos _ (by decide)
          rw [hq_addr]
          omega
      · exact hInv.live_fb ao (List.mem_cons_of_mem _ ht) o' ho' r hold
  · intro ao hao
    rcases List.mem_cons.mp hao with hh | ht
    · subst hh
      show (pga st (ADDR_TO_PAGE (PAGE_TO_ADDR p))).block_size ≤ _
      rw [PAGE_TO_ADDR_def, addr_page_cancel]
      omega
    · exact hInv.live_bs ao (List.mem_cons_of_mem _ ht)

/-- Full split from order j down to target order o: the live block is
refined to order o and every split-off right buddy becomes a free block;
the invariant is preserved. -/
theorem inv_split : ∀ (d j o p : Nat) (st : BuddyState) (L : List (Nat × Nat)),
    j - o = d → MIN_ORDER ≤ o → o ≤ j → j ≤ MAX_ORDER →
    (pga st p).block_size ≤ (o : Int) →
    BuddyInv st ((PAGE_TO_ADDR p, j) :: L) →
    BuddyInv { st with free_area := split j o p st.free_area } ((PAGE_TO_ADDR p, o) :: L) := by
  intro d
  induction d with
  | zero =>
    intro j o p st L hd h12 hoj hj hbs hInv
    have hje : j = o := by omega
    subst hje
    unfold split
    rw [if_pos (Nat.le_refl j)]
    exact hInv
  | succ d ih =>
    intro j o p st L hd h12 hoj hj hbs hInv
    obtain ⟨jm, rfl⟩ : ∃ jm, j = jm + 1 := ⟨j - 1, by omega⟩
    have hm12 : MIN_ORDER = 12 := rfl
    have hM20 : MAX_ORDER = 20 := rfl
    have hhead := hInv.live_ok (PAGE_TO_ADDR p, jm + 1) (List.mem_cons_self _ _)
    simp only [PAGE_TO_ADDR_def] at hhead
    have hpg := byte_to_page hhead.1 hhead.2.1 hhead.2.2.1 hhead.2.2.2
    rw [addr_page_cancel] at hpg
    have hplt : p < PAGE_NUM := by
      have := blockPages_pos (jm + 1)
      have := hpg.2.2
      omega
    have hcur : ADDR_TO_PAGE (BUDDY_ADDR (PAGE_TO_ADDR p) jm) = p + blockPages jm := by
      rw [split_buddy_page (by omega)]
      have hal : 2 ^ ((jm - MIN_ORDER) + 1) ∣ p := by
        have : blockPages (jm + 1) = 2 ^ ((jm - MIN_ORDER) + 1) := by
          unfold blockPages
          congr 1
          omega
        rw [← this]
        exact hpg.2.1
      have := xor_page_split p hplt (jm - MIN_ORDER) (by omega) hal
      rw [this]
      rfl
    have hstep := inv_split_step st L (jm + 1) o p h12 (by omega) hj hbs hInv
    simp only [Nat.add_sub_cancel] at hstep
    have hrec := ih jm o p
      { st with free_area := st.free_area.set jm ((p + blockPages jm) :: st.free_area.getD jm []) }
      L (by omega) h12 (by omega) (by omega) hbs hstep
    have hsplit_eq : split (jm + 1) o p st.free_area =
        split jm o p (st.free_area.set jm
          ((ADDR_TO_PAGE (BUDDY_ADDR (PAGE_TO_ADDR p) jm)) :: st.free_area.getD jm [])) := by
      conv_lhs => unfold split
      rw [if_neg (by omega)]
    rw [hcur] at hsplit_eq
    show BuddyInv { st with free_area := split (jm + 1) o p st.free_area } _
    rw [hsplit_eq]
    exact hrec

/-- Allocation preserves the invariant: a failed scan leaves the state
untouched, and a successful one yields a state satisfying the invariant
with the returned address as a new live block of the target order. -/
theorem inv_alloc_scan : ∀ (fuel order i : Nat) (st : BuddyState) (L : List (Nat × Nat)),
    BuddyInv st L → MIN_ORDER ≤ order → order ≤ i →
    ((buddy_alloc_scan fuel order i st).1 = none → (buddy_alloc_scan fuel order i st).2 = st) ∧
    (∀ a, (buddy_alloc_scan fuel order i st).1 = some a →
      BuddyInv (buddy_alloc_scan fuel order i st).2 ((a, order) :: L)) := by
  intro fuel
  induction fuel with
  | zero =>
    intro order i st L hInv h12 hoi
    exact ⟨fun _ => rfl, fun a ha => by exact absurd ha (by simp [buddy_alloc_scan])⟩
  | succ fuel ih =>
    intro order i st L hInv h12 hoi
    by_cases hi : MAX_ORDER < i
    · constructor
      · intro _
        simp only [buddy_alloc_scan, hi, if_true]
      · intro a ha
        simp only [buddy_alloc_scan, hi, if_true] at ha
        exact absurd ha (by simp)
    · cases hfa : st.free_area.getD i [] with
      | nil =>
        have hred : buddy_alloc_scan (fuel + 1) order i st =
            buddy_alloc_scan fuel order (i + 1) st := by
          simp only [buddy_alloc_scan, hi, if_false, hfa]
        rw [hred]
        exact ih order (i + 1) st L hInv h12 (by omega)
      | cons idx rest =>
        have hi20 : i ≤ MAX_ORDER := Nat.le_of_not_lt hi
        have hmem : idx ∈ st.free_area.getD i [] := by
          rw [hfa]
          exact List.mem_cons_self idx rest
        have hidxlt : idx < PAGE_NUM := by
          have := hInv.fb_ok i (by omega) idx hmem
          have := blockPages_pos i
          omega
        have hcanon := hInv.canon idx hidxlt
        by_cases hio : i = order
        · subst hio
          have hred : buddy_alloc_scan (fuel + 1) i i st =
              (some (pga st idx).block_address,
               { st with free_area := st.free_area.set i rest }) := by
            simp only [buddy_alloc_scan, hi, if_false, hfa, if_pos rfl, if_true]
          rw [hred]
          constructor
          · intro h
            exact absurd h (by simp)
          · intro a ha
            have haa : a = (pga st idx).block_address := by
              simpa using ha.symm
            rw [haa, hcanon.2]
            exact inv_pop_head st L i idx rest hInv h12 hi20 hfa
        · have horder_lt : order < i := by omega
          have hred : buddy_alloc_scan (fuel + 1) order i st =
              (some (pga st idx).block_address,
               { { { st with free_area := st.free_area.set i rest } with
                   g_pages := ({ st with free_area := st.free_area.set i rest }).g_pages.set idx
                     ({ pga st idx with block_size := (order : Int) }) } with
                 free_area := split i order (pga st idx).page_index
                   ({ { st with free_area := st.free_area.set i rest } with
                      g_pages := ({ st with free_area := st.free_area.set i rest }).g_pages.set idx
                        ({ pga st idx with block_size := (order : Int) }) }).free_area }) := by
            simp only [buddy_alloc_scan, hi, if_false, hfa]
            rw [if_neg (fun he => hio he)]
          rw [hred]
          constructor
          · intro h
            exact absurd h (by simp)
          · intro a ha
            have haa : a = (pga st idx).block_address := by
              simpa using ha.symm
            rw [haa, hcanon.2]
            have hpop := inv_pop_head st L i idx rest hInv (by omega) hi20 hfa
            have hset := inv_set_bs { st with free_area := st.free_area.set i rest } L idx i
              order h12 (by omega) hpop
            have hbs2 : (pga { { st with free_area := st.free_area.set i rest } with
                g_pages := ({ st with free_area := st.free_area.set i rest }).g_pages.set idx
                  ({ pga st idx with block_size := (order : Int) }) } idx).block_size =
                (order : Int) := by
              show ((st.g_pages.set idx _).getD idx default).block_size = _
              rw [getD_set_self _ _ _ _ (by rw [hInv.pglen]; exact hidxlt)]
            have happ := inv_split (i - order) i order idx _ L rfl h12 (by omega) hi20
              (le_of_eq hbs2) hset
            rw [hcanon.1]
            exact happ

/-- Erasing one node from a free list only shrinks memberships, so the
invariant survives. -/
theorem inv_erase (st : BuddyState) (L : List (Nat × Nat)) (i j : Nat)
    (hInv : BuddyInv st L) (h12 : MIN_ORDER ≤ i) :
    BuddyInv { st with free_area := st.free_area.set i ((st.free_area.getD i []).erase j) } L := by
  have hsub : ∀ o a, a ∈ (st.free_area.set i ((st.free_area.getD i []).erase j)).getD o [] →
      a ∈ st.free_area.getD o [] := by
    intro o a h
    rcases mem_set_getD h with ⟨ho, ha⟩ | ⟨_, ha⟩
    · subst ho
      exact List.mem_of_mem_erase ha
    · exact ha
  refine ⟨?_, hInv.pglen, hInv.canon, ?_, ?_, ?_, ?_, hInv.bs_align, ?_, hInv.live_ok,
    hInv.live_disj, ?_, hInv.live_bs⟩
  · rw [List.length_set]
    exact hInv.falen
  · intro o ho
    rw [getD_set_ne _ _ _ _ _ (by omega)]
    exact hInv.low_empty o ho
  · intro o ho
    by_cases hoe : o = i
    · subst hoe
      by_cases hol : o < st.free_area.length
      · rw [getD_set_self _ _ _ _ hol]
        exact (hInv.fb_nodup o ho).erase j
      · rw [getD_default_of_le _ _ _ (by rw [List.length_set]; omega)]
        exact List.nodup_nil
    · rw [getD_set_ne _ _ _ _ _ (fun he => hoe he.symm)]
      exact hInv.fb_nodup o ho
  · intro o ho a ha
    exact hInv.fb_ok o ho a (hsub o a ha)
  · intro o1 h1 o2 h2 a ha b hb hne
    exact hInv.fb_disj o1 h1 o2 h2 a (hsub o1 a ha) b (hsub o2 b hb) hne
  · intro o ho a ha
    exact hInv.fb_bs o ho a (hsub o a ha)
  · intro ao hao o ho r hr
    exact hInv.live_fb ao hao o ho r (hsub o r hr)

/-- The terminal step of the buddy_free loop: the released (possibly
merged) block, disjoint from every free and live block, is inserted into
free list i with order field -1. -/
theorem inv_free_insert (st : BuddyState) (L : List (Nat × Nat)) (i addr fi : Nat)
    (hInv : BuddyInv st L) (h12 : MIN_ORDER ≤ i) (h20 : i ≤ MAX_ORDER)
    (hfi : fi = ADDR_TO_PAGE addr) (hal : 2 ^ i ∣ addr)
    (hrange : addr + 2 ^ i ≤ MEMORY_AREA)
    (hcfree : ∀ o' < MAX_ORDER + 1, ∀ r ∈ st.free_area.getD o' [],
      addr + 2 ^ i ≤ PAGE_TO_ADDR r ∨ PAGE_TO_ADDR r + 2 ^ o' ≤ addr)
    (hclive : ∀ ao ∈ L, ao.1 + 2 ^ ao.2 ≤ addr ∨ addr + 2 ^ i ≤ ao.1) :
    BuddyInv { free_area := st.free_area.set i (fi :: st.free_area.getD i [])
             , g_pages := st.g_pages.set fi ({ pga st fi with block_size := -1 }) } L := by
  have hpage := byte_to_page h12 h20 hal hrange
  rw [← hfi] at hpage
  have haddr : addr = fi * PAGE_SIZE := hpage.1
  have hfal : blockPages i ∣ fi := hpage.2.1
  have hfrange : fi + blockPages i ≤ PAGE_NUM := hpage.2.2
  have hflt : fi < PAGE_NUM := by
    have := blockPages_pos i
    omega
  have h2i : (0 : Nat) < 2 ^ i := Nat.pos_pow_of_pos _ (by decide)
  have hoge : ∀ o' (a : Nat), a ∈ st.free_area.getD o' [] → MIN_ORDER ≤ o' := by
    intro o' a ha
    by_contra hc
    exact no_low_mem hInv (Nat.lt_of_not_le hc) ha
  have hpdisj : ∀ o' < MAX_ORDER + 1, ∀ r ∈ st.free_area.getD o' [],
      fi + blockPages i ≤ r ∨ r + blockPages o' ≤ fi := by
    intro o' ho' r hr
    have hro := hoge o' r hr
    have := hcfree o' ho' r hr
    rw [haddr, PAGE_TO_ADDR_def] at this
    exact byte_disj_to_page h12 hro this
  have hnotmem : ∀ o' < MAX_ORDER + 1, ∀ r ∈ st.free_area.getD o' [], r ≠ fi := by
    intro o' ho' r hr he
    subst he
    have h2o : (0 : Nat) < 2 ^ o' := Nat.pos_pow_of_pos _ (by decide)
    have := hcfree o' ho' r hr
    rw [haddr, PAGE_TO_ADDR_def] at this
    omega
  have hlivepage : ∀ ao ∈ L, ADDR_TO_PAGE ao.1 ≠ fi := by
    intro ao hao
    have hlo := hInv.live_ok ao hao
    have hd := hclive ao hao
    refine @page_ne_of_disjoint ao.1 fi ao.2 i hlo.2.2.1 hlo.1 ?_
    rw [← haddr]
    exact hd
  have hpga_fi : (st.g_pages.set fi ({ pga st fi with block_size := -1 })).getD fi default =
      { pga st fi with block_size := -1 } :=
    getD_set_self _ _ _ _ (by rw [hInv.pglen]; exact hflt)
  have hpga_ne : ∀ x, x ≠ fi →
      (st.g_pages.set fi ({ pga st fi with block_size := -1 })).getD x default =
      pga st x := by
    intro x hx
    exact getD_set_ne _ _ _ _ _ (fun he => hx he.symm)
  have hmem_char : ∀ o' a, a ∈ (st.free_area.set i (fi :: st.free_area.getD i [])).getD o' [] →
      (o' = i ∧ a = fi) ∨ a ∈ st.free_area.getD o' [] := by
    intro o' a h
    rcases mem_set_getD h with ⟨hoe, ha⟩ | ⟨_, ha⟩
    · rcases List.mem_cons.mp ha with h1 | h2
      · exact Or.inl ⟨hoe, h1⟩
      · subst hoe
        exact Or.inr h2
    · exact Or.inr ha
  have hilen : i < st.free_area.length := by
    rw [hInv.falen]
    omega
  refine ⟨?_, ?_, ?_, ?_, ?_, ?_, ?_, ?_, ?_, hInv.live_ok, hInv.live_disj, ?_, ?_⟩
  · show (st.free_area.set i _).length = _
    rw [List.length_set]
    exact hInv.falen
  · show (st.g_pages.set fi _).length = _
    rw [List.length_set]
    exact hInv.pglen
  · intro x hx
    show ((st.g_pages.set fi _).getD x default).page_index = x ∧
      ((st.g_pages.set fi _).getD x default).block_address = PAGE_TO_ADDR x
    by_cases hxf : x = fi
    · subst hxf
      rw [hpga_fi]
      exact hInv.canon x hx
    · rw [hpga_ne x hxf]
      exact hInv.canon x hx
  · intro o ho
    show (st.free_area.set i _).getD o [] = []
    rw [getD_set_ne _ _ _ _ _ (by omega)]
    exact hInv.low_empty o ho
  · intro o ho
    show ((st.free_area.set i _).getD o []).Nodup
    by_cases hoe : o = i
    · subst hoe
      rw [getD_set_self _ _ _ _ hilen]
      refine List.nodup_cons.mpr ⟨?_, hInv.fb_nodup o ho⟩
      intro hmem
      exact hnotmem o ho fi hmem rfl
    · rw [getD_set_ne _ _ _ _ _ (fun he => hoe he.symm)]
      exact hInv.fb_nodup o ho
  · intro o ho a ha
    rcases hmem_char o a ha with ⟨hoe, hae⟩ | hold
    · rw [hoe, hae]
      exact ⟨hfal, hfrange⟩
    · exact hInv.fb_ok o ho a hold
  · intro o1 h1 o2 h2 a ha b hb hne
    rcases hmem_char o1 a ha with ⟨hoe1, hae1⟩ | haold
    · rcases hmem_char o2 b hb with ⟨hoe2, hae2⟩ | hbold
      · exact absurd ⟨hoe1.trans hoe2.symm, hae1.trans hae2.symm⟩ hne
      · rw [hoe1, hae1]
        rcases hpdisj o2 h2 b hbold with h | h
        · exact Or.inl h
        · exact Or.inr h
    · rcases hmem_char o2 b hb with ⟨hoe2, hae2⟩ | hbold
      · rw [hoe2, hae2]
        rcases hpdisj o1 h1 a haold with h | h
        · exact Or.inr h
        · exact Or.inl h
      · exact hInv.fb_disj o1 h1 o2 h2 a haold b hbold hne
  · intro x hx
    show ((st.g_pages.set fi ({ pga st fi with block_size := -1 })).getD x default).block_size = -1 ∨
      ∃ b < MAX_ORDER + 1,
        ((st.g_pages.set fi ({ pga st fi with block_size := -1 })).getD x default).block_size = (b : Int) ∧
        MIN_ORDER ≤ b ∧ blockPages b ∣ x ∧ x + blockPages b ≤ PAGE_NUM
    by_cases hxf : x = fi
    · subst hxf
      rw [hpga_fi]
      exact Or.inl rfl
    · rw [hpga_ne x hxf]
      exact hInv.bs_align x hx
  · intro o ho a ha
    show ((st.g_pages.set fi _).getD a default).block_size ≤ _
    rcases hmem_char o a ha with ⟨hoe, hae⟩ | hold
    · rw [hae, hpga_fi]
      show (-1 : Int) ≤ (o : Int)
      omega
    · rw [hpga_ne a (hnotmem o ho a hold)]
      exact hInv.fb_bs o ho a hold
  · intro ao hao o ho r hr
    rcases hmem_char o r hr with ⟨hoe, hae⟩ | hold
    · rw [hoe, hae, PAGE_TO_ADDR_def]
      have hd := hclive ao hao
      rw [haddr] at hd
      exact hd
    · exact hInv.live_fb ao hao o ho r hold
  · intro ao hao
    show ((st.g_pages.set fi _).getD (ADDR_TO_PAGE ao.1) default).block_size ≤ _
    rw [hpga_ne _ (hlivepage ao hao)]
    exact hInv.live_bs ao hao

/-- The merge loop of buddy_free preserves the invariant: at every stage
the current block (addr, i) is aligned, inside the arena, and disjoint
from all free and live blocks; absorbing a free buddy keeps this, and the
final insertion records the block as free. -/
theorem inv_free_go : ∀ (fuel i addr fi : Nat) (st : BuddyState) (L : List (Nat × Nat)),
    BuddyInv st L → MIN_ORDER ≤ i →
    fi = ADDR_TO_PAGE addr → 2 ^ i ∣ addr → addr + 2 ^ i ≤ MEMORY_AREA →
    (∀ o' < MAX_ORDER + 1, ∀ r ∈ st.free_area.getD o' [],
      addr + 2 ^ i ≤ PAGE_TO_ADDR r ∨ PAGE_TO_ADDR r + 2 ^ o' ≤ addr) →
    (∀ ao ∈ L, ao.1 + 2 ^ ao.2 ≤ addr ∨ addr + 2 ^ i ≤ ao.1) →
    BuddyInv (buddy_free_go fuel i addr fi st) L := by
  intro fuel
  induction fuel with
  | zero =>
    intro i addr fi st L hInv _ _ _ _ _ _
    exact hInv
  | succ fuel ih =>
    intro i addr fi st L hInv h12 hfi hal hrange hcfree hclive
    have hm12 : MIN_ORDER = 12 := rfl
    have hM20 : MAX_ORDER = 20 := rfl
    have hPN : PAGE_NUM = 256 := rfl
    by_cases hi : MAX_ORDER < i
    · simp only [buddy_free_go, hi, if_true]
      exact hInv
    · have hi20 : i ≤ MAX_ORDER := Nat.le_of_not_lt hi
      have hoge : ∀ o' (a : Nat), a ∈ st.free_area.getD o' [] → MIN_ORDER ≤ o' := by
        intro o' a ha
        by_contra hc
        exact no_low_mem hInv (Nat.lt_of_not_le hc) ha
      cases hfind : (st.free_area.getD i []).find?
          (fun j => (pga st j).block_address == BUDDY_ADDR addr i) with
      | none =>
        have hred : buddy_free_go (fuel + 1) i addr fi st =
            { free_area := st.free_area.set i (fi :: st.free_area.getD i [])
            , g_pages := st.g_pages.set fi ({ pga st fi with block_size := -1 }) } := by
          simp only [buddy_free_go, hi, if_false, hfind]
        rw [hred]
        exact inv_free_insert st L i addr fi hInv h12 hi20 hfi hal hrange hcfree hclive
      | some j =>
        have hjmem : j ∈ st.free_area.getD i [] := List.mem_of_find?_eq_some hfind
        have hjaddr_eq : (pga st j).block_address = BUDDY_ADDR addr i := by
          have hb := List.find?_some hfind
          exact eq_of_beq hb
        have hjfb := hInv.fb_ok i (by omega) j hjmem
        have hbppos := blockPages_pos i
        have hjlt : j < PAGE_NUM := by omega
        have hjcanon := hInv.canon j hjlt
        have hjps : j * PAGE_SIZE = BUDDY_ADDR addr i := by
          rw [← PAGE_TO_ADDR_def, ← hjcanon.2, hjaddr_eq]
        have hpage := byte_to_page h12 hi20 hal hrange
        rw [← hfi] at hpage
        have haddr : addr = fi * PAGE_SIZE := hpage.1
        have hPal : blockPages i ∣ fi := hpage.2.1
        have hPrange : fi + blockPages i ≤ PAGE_NUM := hpage.2.2
        have hflt : fi < PAGE_NUM := by omega
        have hbap : BUDDY_ADDR addr i = (fi ^^^ 2 ^ (i - MIN_ORDER)) * PAGE_SIZE := by
          rw [haddr]
          exact buddy_addr_page h12
        have hj_eq : j = fi ^^^ 2 ^ (i - MIN_ORDER) := by
          have hmm : j * PAGE_SIZE = (fi ^^^ 2 ^ (i - MIN_ORDER)) * PAGE_SIZE := by
            rw [hjps, hbap]
          exact Nat.eq_of_mul_eq_mul_right (by decide) hmm
        have hbp_eq : blockPages i = 2 ^ (i - MIN_ORDER) := rfl
        have hky : 2 ^ (i - MIN_ORDER) * PAGE_SIZE = 2 ^ i := by
          rw [← hbp_eq]
          exact blockPages_mul h12
        have hpow : (2 : Nat) ^ (i + 1) = 2 ^ i + 2 ^ i := by
          rw [Nat.pow_succ]
          omega
        have h2ipos : (0 : Nat) < 2 ^ i := Nat.pos_pow_of_pos _ (by decide)
        have hbig : blockPages (i + 1) = 2 ^ ((i - MIN_ORDER) + 1) := by
          unfold blockPages
          congr 1
          omega
        have hxr := xor_page_cases fi hflt (i - MIN_ORDER) (by omega) (by rw [← hbp_eq]; exact hPal)
        -- membership in the erased state
        have hmem_sub : ∀ o' a,
            a ∈ (st.free_area.set i ((st.free_area.getD i []).erase j)).getD o' [] →
            a ∈ st.free_area.getD o' [] ∧ ¬(i = o' ∧ j = a) := by
          intro o' a ha
          rcases mem_set_getD ha with ⟨hoe, hae⟩ | ⟨hone, hae⟩
          · subst hoe
            have hnd := hInv.fb_nodup o' (by omega)
            have := (List.Nodup.mem_erase_iff hnd).mp hae
            exact ⟨this.2, by rintro ⟨_, rfl⟩; exact this.1 rfl⟩
          · exact ⟨hae, by rintro ⟨he, _⟩; exact hone he.symm⟩
        have hjr : ∀ o' < MAX_ORDER + 1, ∀ r ∈ st.free_area.getD o' [], ¬(i = o' ∧ j = r) →
            j * PAGE_SIZE + 2 ^ i ≤ r * PAGE_SIZE ∨ r * PAGE_SIZE + 2 ^ o' ≤ j * PAGE_SIZE := by
          intro o' ho' r hr hg
          exact page_disj_to_byte h12 (hoge o' r hr) (hInv.fb_disj i (by omega) o' ho' j hjmem r hr hg)
        have hjlive : ∀ ao ∈ L, ao.1 + 2 ^ ao.2 ≤ j * PAGE_SIZE ∨ j * PAGE_SIZE + 2 ^ i ≤ ao.1 := by
          intro ao hao
          have := hInv.live_fb ao hao i (by omega) j hjmem
          rw [PAGE_TO_ADDR_def] at this
          exact this
        have hInv' := inv_erase st L i j hInv h12
        have hcfree' : ∀ o' < MAX_ORDER + 1,
            ∀ r ∈ (st.free_area.set i ((st.free_area.getD i []).erase j)).getD o' [],
            (addr + 2 ^ i ≤ PAGE_TO_ADDR r ∨ PAGE_TO_ADDR r + 2 ^ o' ≤ addr) ∧
            (j * PAGE_SIZE + 2 ^ i ≤ r * PAGE_SIZE ∨ r * PAGE_SIZE + 2 ^ o' ≤ j * PAGE_SIZE) := by
          intro o' ho' r hr
          obtain ⟨hrold, hguard⟩ := hmem_sub o' r hr
          exact ⟨hcfree o' ho' r hrold, hjr o' ho' r hrold hguard⟩
        rcases hxr with ⟨hjadd, halbig⟩ | ⟨hjsub, halbigj⟩
        · -- the buddy lies above: j * PAGE_SIZE = addr + 2^i, addr stays
          have hjval : j = fi + 2 ^ (i - MIN_ORDER) := by
            rw [hj_eq, hjadd]
          have hjps_val : j * PAGE_SIZE = addr + 2 ^ i := by
            rw [hjval, Nat.add_mul, hky, ← haddr]
          have hne20 : i ≠ MAX_ORDER := by
            intro hie
            subst hie
            have h256 : (2 : Nat) ^ (MAX_ORDER - MIN_ORDER) = 256 := by decide
            omega
          have hnotlt : ¬((pga st j).block_address < addr) := by
            rw [hjcanon.2, PAGE_TO_ADDR_def, hjps_val]
            omega
          have hred : buddy_free_go (fuel + 1) i addr fi st =
              buddy_free_go fuel (i + 1) addr fi
                { st with free_area := st.free_area.set i ((st.free_area.getD i []).erase j) } := by
            simp only [buddy_free_go, hi, if_false, hfind, hnotlt]
          rw [hred]
          refine ih (i + 1) addr fi _ L hInv' (by omega) hfi ?_ ?_ ?_ ?_
          · have halfi : blockPages (i + 1) ∣ fi := by
              rw [hbig]
              exact halbig
            have hrng : fi + blockPages (i + 1) ≤ PAGE_NUM := by
              have hb2 : blockPages (i + 1) = 2 * blockPages i := blockPages_succ h12
              omega
            have := page_to_byte (by omega) halfi hrng
            rw [← haddr] at this
            exact this.1
          · have hjbyte2 := (page_to_byte h12 hjfb.1 hjfb.2).2
            omega
          · intro o' ho' r hr
            have hro := hoge o' r ((hmem_sub o' r hr).1)
            obtain ⟨hold, hjdisj⟩ := hcfree' o' ho' r hr
            rw [PAGE_TO_ADDR_def] at hold ⊢
            have h2opos : (0 : Nat) < 2 ^ o' := Nat.pos_pow_of_pos _ (by decide)
            omega
          · intro ao hao
            have hold := hclive ao hao
            have hjd := hjlive ao hao
            have hk2 : (0 : Nat) < 2 ^ ao.2 := Nat.pos_pow_of_pos _ (by decide)
            omega
        · -- the buddy lies below: j * PAGE_SIZE + 2^i = addr, move to it
          have hjval : j + 2 ^ (i - MIN_ORDER) = fi := by
            rw [hj_eq]
            exact hjsub
          have hjps_val : j * PAGE_SIZE + 2 ^ i = addr := by
            rw [haddr, ← hjval, Nat.add_mul, hky]
          have hne20 : i ≠ MAX_ORDER := by
            intro hie
            subst hie
            have h256 : (2 : Nat) ^ (MAX_ORDER - MIN_ORDER) = 256 := by decide
            omega
          have hlt : (pga st j).block_address < addr := by
            rw [hjcanon.2, PAGE_TO_ADDR_def]
            omega
          have hred : buddy_free_go (fuel + 1) i addr fi st =
              buddy_free_go fuel (i + 1) (pga st j).block_address
                (ADDR_TO_PAGE (pga st j).block_address)
                { st with free_area := st.free_area.set i ((st.free_area.getD i []).erase j) } := by
            simp only [buddy_free_go, hi, if_false, hfind, hlt, if_true]
          rw [hred]
          rw [hjcanon.2, PAGE_TO_ADDR_def, addr_page_cancel]
          refine ih (i + 1) (j * PAGE_SIZE) j _ L hInv' (by omega) (addr_page_cancel j).symm ?_ ?_ ?_ ?_
          · have halj : blockPages (i + 1) ∣ j := by
              rw [hbig, hj_eq]
              exact halbigj
            have hrng : j + blockPages (i + 1) ≤ PAGE_NUM := by
              have hb2 : blockPages (i + 1) = 2 * blockPages i := blockPages_succ h12
              omega
            exact (page_to_byte (by omega) halj hrng).1
          · omega
          · intro o' ho' r hr
            have hro := hoge o' r ((hmem_sub o' r hr).1)
            obtain ⟨hold, hjdisj⟩ := hcfree' o' ho' r hr
            rw [PAGE_TO_ADDR_def] at hold ⊢
            have h2opos : (0 : Nat) < 2 ^ o' := Nat.pos_pow_of_pos _ (by decide)
            omega
          · intro ao hao
            have hold := hclive ao hao
            have hjd := hjlive ao hao
            have hk2 : (0 : Nat) < 2 ^ ao.2 := Nat.pos_pow_of_pos _ (by decide)
            omega

/-! ### buddy_free preserves the invariant; reachability -/

/-- The live-disjointness relation is symmetric. -/
theorem live_disj_symm :
    Symmetric (fun x y : Nat × Nat => x.1 + 2 ^ x.2 ≤ y.1 ∨ y.1 + 2 ^ y.2 ≤ x.1) := by
  intro x y h
  exact Or.symm h

/-- A live list is duplicate-free: a block cannot be disjoint from itself. -/
theorem live_nodup {L : List (Nat × Nat)}
    (h : L.Pairwise (fun x y => x.1 + 2 ^ x.2 ≤ y.1 ∨ y.1 + 2 ^ y.2 ≤ x.1)) : L.Nodup := by
  refine h.imp ?_
  intro a b hab he
  subst he
  have hpos : (0 : Nat) < 2 ^ a.2 := Nat.pos_pow_of_pos _ (by decide)
  omega

/-- Restricting the ghost live list to any sublist preserves the invariant. -/
theorem inv_live_sublist {st : BuddyState} {L L₂ : List (Nat × Nat)}
    (hInv : BuddyInv st L) (hsub : L₂.Sublist L) : BuddyInv st L₂ := by
  refine ⟨hInv.falen, hInv.pglen, hInv.canon, hInv.low_empty, hInv.fb_nodup, hInv.fb_ok,
    hInv.fb_disj, hInv.bs_align, hInv.fb_bs, ?_, ?_, ?_, ?_⟩
  · intro ao hao
    exact hInv.live_ok ao (hsub.mem hao)
  · exact hInv.live_disj.sublist hsub
  · intro ao hao
    exact hInv.live_fb ao (hsub.mem hao)
  · intro ao hao
    exact hInv.live_bs ao (hsub.mem hao)

/-- Every block remaining after erasing a live block is disjoint from it. -/
theorem pairwise_erase_disj {L : List (Nat × Nat)} {x : Nat × Nat}
    (h : L.Pairwise (fun a b => a.1 + 2 ^ a.2 ≤ b.1 ∨ b.1 + 2 ^ b.2 ≤ a.1))
    (hx : x ∈ L) :
    ∀ y ∈ L.erase x, y.1 + 2 ^ y.2 ≤ x.1 ∨ x.1 + 2 ^ x.2 ≤ y.1 := by
  intro y hy
  have hnd : L.Nodup := live_nodup h
  have hyL : y ∈ L := (List.erase_sublist x L).mem hy
  have hne : y ≠ x := ((List.Nodup.mem_erase_iff hnd).mp hy).1
  exact Or.symm (List.Pairwise.forall live_disj_symm h hx hyL (Ne.symm hne))

/-- buddy_free on a live address preserves the invariant: the freed block
leaves the ghost live list and (after merging) returns to the free lists. -/
theorem inv_free (st : BuddyState) (L : List (Nat × Nat)) (a o : Nat) (s₁ : BuddyState)
    (hInv : BuddyInv st L) (hmem : (a, o) ∈ L) (hfree : buddy_free a st = some s₁) :
    BuddyInv s₁ (L.erase (a, o)) := by
  have hlo := hInv.live_ok (a, o) hmem
  have ho12 : MIN_ORDER ≤ o := hlo.1
  have ho20 : o ≤ MAX_ORDER := hlo.2.1
  have hdvd : 2 ^ o ∣ a := hlo.2.2.1
  have hrange : a + 2 ^ o ≤ MEMORY_AREA := hlo.2.2.2
  have hbs : (pga st (ADDR_TO_PAGE a)).block_size ≤ (o : Int) := hInv.live_bs (a, o) hmem
  have hfree2 : (if (pga st (ADDR_TO_PAGE a)).block_size < (MIN_ORDER : Int) then none
      else some (buddy_free_go (MAX_ORDER + 1)
        ((pga st (ADDR_TO_PAGE a)).block_size).toNat a (ADDR_TO_PAGE a) st)) = some s₁ := hfree
  by_cases hlt : (pga st (ADDR_TO_PAGE a)).block_size < (MIN_ORDER : Int)
  · rw [if_pos hlt] at hfree2
    exact Option.noConfusion hfree2
  · rw [if_neg hlt] at hfree2
    have hse := Option.some.inj hfree2
    have hfo12 : MIN_ORDER ≤ ((pga st (ADDR_TO_PAGE a)).block_size).toNat := by omega
    have hfoo : ((pga st (ADDR_TO_PAGE a)).block_size).toNat ≤ o := by omega
    have hpow : (2 : Nat) ^ ((pga st (ADDR_TO_PAGE a)).block_size).toNat ≤ 2 ^ o :=
      Nat.pow_le_pow_right (by decide) hfoo
    have hInvE : BuddyInv st (L.erase (a, o)) :=
      inv_live_sublist hInv (List.erase_sublist (a, o) L)
    have hdisjE := pairwise_erase_disj hInv.live_disj hmem
    have hcfree : ∀ o₂ < MAX_ORDER + 1, ∀ r ∈ st.free_area.getD o₂ [],
        a + 2 ^ ((pga st (ADDR_TO_PAGE a)).block_size).toNat ≤ PAGE_TO_ADDR r ∨
        PAGE_TO_ADDR r + 2 ^ o₂ ≤ a := by
      intro o₂ ho₂ r hr
      have hold : a + 2 ^ o ≤ PAGE_TO_ADDR r ∨ PAGE_TO_ADDR r + 2 ^ o₂ ≤ a :=
        hInv.live_fb (a, o) hmem o₂ ho₂ r hr
      omega
    have hclive : ∀ bo ∈ L.erase (a, o), bo.1 + 2 ^ bo.2 ≤ a ∨
        a + 2 ^ ((pga st (ADDR_TO_PAGE a)).block_size).toNat ≤ bo.1 := by
      intro bo hbo
      have hold : bo.1 + 2 ^ bo.2 ≤ a ∨ a + 2 ^ o ≤ bo.1 := hdisjE bo hbo
      omega
    have hgo := inv_free_go (MAX_ORDER + 1) ((pga st (ADDR_TO_PAGE a)).block_size).toNat a
      (ADDR_TO_PAGE a) st (L.erase (a, o)) hInvE hfo12 rfl
      (dvd_trans (pow_dvd_pow 2 hfoo) hdvd) (by omega) hcfree hclive
    exact hse ▸ hgo

/-- Every reachable state satisfies the invariant with its live list. -/
theorem reach_inv : ∀ (s : BuddyState) (L : List (Nat × Nat)), Reach s L → BuddyInv s L := by
  intro s L h
  induction h with
  | start => exact inv_init
  | restart s₀ L₀ _ ih =>
    rw [buddy_init_eq s₀ ih.falen ih.low_empty]
    exact inv_init
  | alloc_ok s₀ s₁ L₀ size a _ heq ih =>
    have hscan : buddy_alloc_scan (MAX_ORDER + 1) (order_exp size) (order_exp size) s₀ =
        (some a, s₁) := heq
    have hmain := inv_alloc_scan (MAX_ORDER + 1) (order_exp size) (order_exp size) s₀ L₀ ih
      (order_exp_ge size) (Nat.le_refl _)
    have h1 : (buddy_alloc_scan (MAX_ORDER + 1) (order_exp size) (order_exp size) s₀).1 =
        some a := by rw [hscan]
    have h2 := hmain.2 a h1
    rw [hscan] at h2
    exact h2
  | alloc_fail s₀ s₁ L₀ size _ heq ih =>
    have hscan : buddy_alloc_scan (MAX_ORDER + 1) (order_exp size) (order_exp size) s₀ =
        (none, s₁) := heq
    have hmain := inv_alloc_scan (MAX_ORDER + 1) (order_exp size) (order_exp size) s₀ L₀ ih
      (order_exp_ge size) (Nat.le_refl _)
    have h1 : (buddy_alloc_scan (MAX_ORDER + 1) (order_exp size) (order_exp size) s₀).1 =
        none := by rw [hscan]
    have h2 := hmain.1 h1
    rw [hscan] at h2
    have h3 : s₁ = s₀ := h2
    rw [h3]
    exact ih
  | free_ok s₀ s₁ L₀ a o _ hmem hfree ih =>
    exact inv_free s₀ L₀ a o s₁ ih hmem hfree

/-- C4: after buddy_init every free list is empty except free_area[MAX_ORDER],
which holds exactly page 0 with its page record's order field set to
MAX_ORDER; every other page record is marked not-a-block-head (-1); and
re-running buddy_init from any reachable state fully resets the allocator
to this exact same state (idempotence). -/
theorem C4_init_state_and_idempotence :
    (initState.free_area.getD MAX_ORDER [] = [0] ∧
     (∀ o < MAX_ORDER + 1, o ≠ MAX_ORDER → initState.free_area.getD o [] = []) ∧
     (pga initState 0).block_size = (MAX_ORDER : Int) ∧
     (∀ i < PAGE_NUM, i ≠ 0 → (pga initState i).block_size = -1)) ∧
    ∀ (s : BuddyState) (L : List (Nat × Nat)), Reach s L → buddy_init s = initState := by
  refine ⟨⟨by decide, by decide, by decide, by decide⟩, ?_⟩
  intro s L hr
  have ih := reach_inv s L hr
  exact buddy_init_eq s ih.falen ih.low_empty

/-- C4 witness: the idempotence part applied at the reachable post-init
state itself. -/
theorem C4_init_state_and_idempotence_witness :
    buddy_init initState = initState :=
  C4_init_state_and_idempotence.2 initState [] Reach.start

/-- C5: every address returned by a successful buddy_alloc(size) lies
within the arena, is aligned to 2^order_exp(size) bytes from the arena
base, and its 2^order_exp(size) bytes overlap no other live allocation. -/
theorem C5_alloc_aligned_in_arena_disjoint :
    ∀ (s s₁ : BuddyState) (L : List (Nat × Nat)) (size : Int) (a : Nat),
    Reach s L → buddy_alloc size s = (some a, s₁) →
    a + 2 ^ order_exp size ≤ MEMORY_AREA ∧ 2 ^ order_exp size ∣ a ∧
    ∀ bo ∈ L, a + 2 ^ order_exp size ≤ bo.1 ∨ bo.1 + 2 ^ bo.2 ≤ a := by
  intro s s₁ L size a hr heq
  have ih := reach_inv s L hr
  have hscan : buddy_alloc_scan (MAX_ORDER + 1) (order_exp size) (order_exp size) s =
      (some a, s₁) := heq
  have hmain := inv_alloc_scan (MAX_ORDER + 1) (order_exp size) (order_exp size) s L ih
    (order_exp_ge size) (Nat.le_refl _)
  have h1 : (buddy_alloc_scan (MAX_ORDER + 1) (order_exp size) (order_exp size) s).1 =
      some a := by rw [hscan]
  have h2 := hmain.2 a h1
  have hok := h2.live_ok (a, order_exp size) (List.mem_cons_self _ _)
  have hpd := List.pairwise_cons.mp h2.live_disj
  refine ⟨hok.2.2.2, hok.2.2.1, ?_⟩
  intro bo hbo
  exact hpd.1 bo hbo

/-- C5 witness: the first alloc(4096) from the post-init state returns
offset 0, in the arena, 4096-byte aligned, disjoint from the (empty) live
set. -/
theorem C5_alloc_aligned_in_arena_disjoint_witness :
    0 + 2 ^ order_exp 4096 ≤ MEMORY_AREA ∧ 2 ^ order_exp 4096 ∣ 0 ∧
    ∀ bo ∈ ([] : List (Nat × Nat)), 0 + 2 ^ order_exp 4096 ≤ bo.1 ∨ bo.1 + 2 ^ bo.2 ≤ 0 :=
  C5_alloc_aligned_in_arena_disjoint initState (buddy_alloc 4096 initState).2 [] 4096 0
    Reach.start (by
      have h1 : (buddy_alloc 4096 initState).1 = some 0 := by decide
      exact Prod.ext h1 rfl)
